import Mathlib

/-!
A shallow embedding of the core routines of `main.py` from
"Luulek's Epic Steam Thing V2": the worker download/extract/install
pipeline (`Worker.run`), the catalog listing (`DownloaderApp.fetch_files`)
and the overlay applier (`DownloaderApp.insert_online_fix`), together
with theorems checking the specification's claims about them.

Filesystems are modelled as association lists from paths to abstract
contents; network responses and archive contents are supplied by a
`World` parameter.
-/

/-- Abstract file contents (actual bytes are abstracted to an index). -/
abbrev Content := Nat

/-- A filesystem path, as a list of path components. -/
abbrev FsPath := List String

/-- Look up the first binding of key `k` in an association list. -/
def lookupA {κ β : Type} [DecidableEq κ] (k : κ) : List (κ × β) → Option β
  | [] => none
  | (k', v) :: t => if k' = k then some v else lookupA k t

/-- Write `(k, v)`: replace the first binding of `k`, or append a new one.
This is the effect of an overwriting file copy on a directory. -/
def setA {κ β : Type} [DecidableEq κ] (k : κ) (v : β) : List (κ × β) → List (κ × β)
  | [] => [(k, v)]
  | (k', v') :: t => if k' = k then (k, v) :: t else (k', v') :: setA k v t

/-- Apply a list of writes in order. -/
def setFold {κ β : Type} [DecidableEq κ] (ws : List (κ × β)) (acc : List (κ × β)) :
    List (κ × β) :=
  ws.foldl (fun a kv => setA kv.1 kv.2 a) acc

/-- Eager alternative on `Option`. -/
def oor {α : Type} : Option α → Option α → Option α
  | some a, _ => some a
  | none, b => b

/-- The value of the last write to key `k` in a write list. -/
def lastVal {κ β : Type} [DecidableEq κ] (ws : List (κ × β)) (k : κ) : Option β :=
  ws.foldl (fun acc kv => if kv.1 = k then some kv.2 else acc) none

@[simp] theorem oor_none_left {α : Type} (b : Option α) : oor none b = b := rfl

@[simp] theorem oor_some_left {α : Type} (a : α) (b : Option α) :
    oor (some a) b = some a := rfl

@[simp] theorem oor_none_right {α : Type} (a : Option α) : oor a none = a := by
  cases a <;> rfl

theorem oor_assoc {α : Type} (a b c : Option α) :
    oor (oor a b) c = oor a (oor b c) := by
  cases a <;> rfl

theorem oor_self_absorb {α : Type} (a b : Option α) : oor a (oor a b) = oor a b := by
  cases a <;> rfl

theorem lookupA_setA {κ β : Type} [DecidableEq κ] (k k' : κ) (v : β)
    (l : List (κ × β)) :
    lookupA k (setA k' v l) = if k' = k then some v else lookupA k l := by
  induction l with
  | nil => simp [setA, lookupA]
  | cons hd t ih =>
    obtain ⟨a, b⟩ := hd
    by_cases hak : a = k' <;> by_cases h2 : k' = k <;> by_cases h3 : a = k <;>
      simp_all [setA, lookupA]

theorem setA_self {κ β : Type} [DecidableEq κ] (k : κ) (v : β) (l : List (κ × β))
    (h : lookupA k l = some v) : setA k v l = l := by
  induction l with
  | nil => simp [lookupA] at h
  | cons hd t ih =>
    obtain ⟨a, b⟩ := hd
    by_cases hak : a = k
    · subst hak
      rw [lookupA, if_pos rfl] at h
      have hb : b = v := Option.some.inj h
      subst hb
      simp [setA]
    · simp only [lookupA, if_neg hak] at h
      simp [setA, hak, ih h]

theorem mem_setA {κ β : Type} [DecidableEq κ] (k : κ) (v : β) (l : List (κ × β))
    (e : κ × β) (h : e ∈ setA k v l) : e = (k, v) ∨ e ∈ l := by
  induction l with
  | nil =>
    simp only [setA, List.mem_singleton] at h
    exact Or.inl h
  | cons hd t ih =>
    obtain ⟨a, b⟩ := hd
    by_cases hak : a = k
    · rw [setA, if_pos hak] at h
      rcases List.mem_cons.mp h with h' | h'
      · exact Or.inl h'
      · exact Or.inr (List.mem_cons_of_mem _ h')
    · rw [setA, if_neg hak] at h
      rcases List.mem_cons.mp h with h' | h'
      · exact Or.inr (by simp [h'])
      · rcases ih h' with h'' | h''
        · exact Or.inl h''
        · exact Or.inr (List.mem_cons_of_mem _ h'')

theorem lastVal_aux {κ β : Type} [DecidableEq κ] (k : κ) (ws : List (κ × β))
    (i : Option β) :
    ws.foldl (fun acc kv => if kv.1 = k then some kv.2 else acc) i =
      oor (lastVal ws k) i := by
  induction ws generalizing i with
  | nil => simp [lastVal]
  | cons hd t ih =>
    simp only [List.foldl_cons, lastVal] at *
    rw [ih, ih (if hd.1 = k then some hd.2 else none)]
    by_cases h : hd.1 = k
    · simp only [if_pos h]
      rw [oor_assoc]
      rfl
    · simp [if_neg h]

theorem lastVal_cons {κ β : Type} [DecidableEq κ] (k : κ) (kv : κ × β)
    (t : List (κ × β)) :
    lastVal (kv :: t) k = oor (lastVal t k) (if kv.1 = k then some kv.2 else none) := by
  simp only [lastVal, List.foldl_cons]
  rw [lastVal_aux]
  rfl

theorem lookupA_setFold {κ β : Type} [DecidableEq κ] (ws : List (κ × β))
    (acc : List (κ × β)) (k : κ) :
    lookupA k (setFold ws acc) = oor (lastVal ws k) (lookupA k acc) := by
  induction ws generalizing acc with
  | nil => simp [setFold, lastVal]
  | cons kv t ih =>
    simp only [setFold, List.foldl_cons] at *
    rw [ih, lookupA_setA, lastVal_cons, oor_assoc]
    by_cases h : kv.1 = k <;> simp [h]

theorem lastVal_eq_none {κ β : Type} [DecidableEq κ] (ws : List (κ × β)) (k : κ)
    (h : ∀ kv ∈ ws, kv.1 ≠ k) : lastVal ws k = none := by
  induction ws with
  | nil => rfl
  | cons kv t ih =>
    rw [lastVal_cons, ih (fun e he => h e (List.mem_cons_of_mem _ he))]
    simp [h kv (List.mem_cons_self _ _)]

theorem mem_setFold {κ β : Type} [DecidableEq κ] (ws : List (κ × β))
    (acc : List (κ × β)) (e : κ × β) (h : e ∈ setFold ws acc) :
    e ∈ acc ∨ e.1 ∈ ws.map Prod.fst := by
  induction ws generalizing acc with
  | nil => exact Or.inl h
  | cons kv t ih =>
    simp only [setFold, List.foldl_cons] at h
    rcases ih _ h with h' | h'
    · rcases mem_setA _ _ _ _ h' with h'' | h''
      · right; simp [h'']
      · exact Or.inl h''
    · right; simp [h']

/-! ## The installer pipeline (`Worker.run` in `main.py`) -/

/-- The settings record persisted in `app_state.json` and edited by the
settings dialog (`steam_path`, `dark_theme`, `delete_after`, `win_notify`,
`restart_steam`). -/
structure SettingsRec where
  steam_path : String
  dark_theme : Bool
  delete_after : Bool
  win_notify : Bool
  restart_steam : Bool
deriving DecidableEq

/-- An HTTP response for one archive fetch (`requests.get(RAW_URL + name)`). -/
structure FetchResp where
  status : Nat
  body : Content
deriving DecidableEq

/-- The external world the worker interacts with: the network, the zip
extractor (`zipfile.ZipFile(...).extractall`, yielding the archive's files
as relative paths), and the check `os.path.exists(steam_path + '/steam.exe')`. -/
structure World where
  fetch : String → FetchResp
  unzip : Content → List (FsPath × Content)
  steamExePresent : String → Bool

/-- The filesystem regions the worker touches: the download cache
(zip files and extracted scratch directories) and the two destination
directories `config/depotcache` and `config/stplug-in` under the Steam root. -/
structure InstallFS where
  cacheZips : List (String × Content)
  scratchDirs : List String
  scratch : List (FsPath × Content)
  depotDirExists : Bool
  plugDirExists : Bool
  depot : List (String × Content)
  plug : List (String × Content)
deriving DecidableEq

/-- Python's `str.replace('.zip', '')` on the character list: every
(left-to-right, non-overlapping) occurrence of `.zip` is removed.
Structural recursion on a fuel argument (one unit per character). -/
def stripZipAllFuel : Nat → List Char → List Char
  | 0, _ => []
  | _ + 1, [] => []
  | fuel + 1, c :: rest =>
    if (".zip".toList).isPrefixOf (c :: rest) then
      stripZipAllFuel fuel ((c :: rest).drop 4)
    else c :: stripZipAllFuel fuel rest

/-- Python's `str.replace('.zip', '')` on the character list. -/
def stripZipAll (l : List Char) : List Char := stripZipAllFuel l.length l

/-- The scratch directory name for an item: `name.replace('.zip', '')`
from `extract_dir = os.path.join(CACHE_DIR, name.replace('.zip',''))`. -/
def scratchName (name : String) : String := ⟨stripZipAll name.toList⟩

/-- Bool test that `suffix` is a suffix of `s` (Python `str.endswith`),
computed on character lists so that it evaluates by `decide`. -/
def strEndsWith (s suffix : String) : Bool :=
  suffix.toList.isSuffixOf s.toList

/-- Modelled from the spec: "a scratch subdirectory named by stripping the
archive's standard extension from the item name" — strip one trailing
`.zip` and leave the rest of the name unchanged. -/
def stripZipSuffixSpec (name : String) : String :=
  if strEndsWith name ".zip" then ⟨name.toList.take (name.toList.length - 4)⟩
  else name

/-- Bool test: does the character list contain the pattern as a
contiguous sublist? -/
def hasSub (pat : List Char) : List Char → Bool
  | [] => pat.isEmpty
  | c :: rest => pat.isPrefixOf (c :: rest) || hasSub pat rest

/-- `open(dest_path, 'wb').write(resp.content)`: store the zip in the cache. -/
def saveZip (name : String) (c : Content) (fs : InstallFS) : InstallFS :=
  { fs with cacheZips := setA name c fs.cacheZips }

/-- `os.makedirs(extract_dir, exist_ok=True)`. -/
def mkScratchDir (d : String) (fs : InstallFS) : InstallFS :=
  { fs with scratchDirs :=
      if d ∈ fs.scratchDirs then fs.scratchDirs else fs.scratchDirs ++ [d] }

/-- `z.extractall(extract_dir)`: every archive member is written (overwriting)
below the scratch directory. -/
def extractInto (d : String) (entries : List (FsPath × Content)) (fs : InstallFS) :
    InstallFS :=
  { fs with scratch := setFold (entries.map (fun e => (d :: e.1, e.2))) fs.scratch }

/-- `os.remove(dest_path)` (best-effort) on the downloaded zip. -/
def removeZipFile (name : String) (fs : InstallFS) : InstallFS :=
  { fs with cacheZips := fs.cacheZips.filter (fun e => e.1 ≠ name) }

/-- The basename of a path (the walk copies files under their basename). -/
def basenameOf (p : FsPath) : String := p.getLastD ""

/-- The regular files `os.walk(extract_dir)` visits, in walk order. -/
def walkFiles (d : String) (fs : InstallFS) : List (FsPath × Content) :=
  fs.scratch.filter (fun e => e.1.head? = some d)

/-- The `(basename, content)` writes into `config/depotcache`: walked files
whose name ends in `.manifest` and whose `shutil.copy2` does not raise
(failures are swallowed by `try/except: pass`). -/
def manifestWrites (failCopy : FsPath → Bool) (files : List (FsPath × Content)) :
    List (String × Content) :=
  files.filterMap (fun e =>
    if strEndsWith (basenameOf e.1) ".manifest" && !failCopy e.1 then
      some (basenameOf e.1, e.2)
    else none)

/-- The `(basename, content)` writes into `config/stplug-in`: walked files
whose name ends in `.lua` and whose copy does not raise. -/
def luaWrites (failCopy : FsPath → Bool) (files : List (FsPath × Content)) :
    List (String × Content) :=
  files.filterMap (fun e =>
    if strEndsWith (basenameOf e.1) ".lua" && !failCopy e.1 then
      some (basenameOf e.1, e.2)
    else none)

/-- The distribution step: `os.makedirs` on both destination directories,
then the `os.walk` loop copying `.manifest` files into `depotcache` and
`.lua` files into `stplug-in`, each under its basename, swallowing
per-file copy failures. -/
def distribute (failCopy : FsPath → Bool) (d : String) (fs : InstallFS) : InstallFS :=
  let files := walkFiles d fs
  { fs with
    depotDirExists := true
    plugDirExists := true
    depot := setFold (manifestWrites failCopy files) fs.depot
    plug := setFold (luaWrites failCopy files) fs.plug }

/-- `shutil.rmtree(extract_dir)`: the scratch directory and everything
below it disappear. -/
def rmScratch (d : String) (fs : InstallFS) : InstallFS :=
  { fs with
    scratchDirs := fs.scratchDirs.filter (fun x => x ≠ d)
    scratch := fs.scratch.filter (fun e => e.1.head? ≠ some d) }

/-- The body of one loop iteration of `Worker.run` for item `name`, after a
successful download: save the zip, extract, delete the zip, distribute the
classified files, and (if `delete_after` was read as true) delete the
scratch directory. -/
def processItemBody (w : World) (failCopy : FsPath → Bool) (da : Bool)
    (name : String) (fs : InstallFS) : InstallFS :=
  let body := (w.fetch name).body
  let fs1 := saveZip name body fs
  let d := scratchName name
  let fs2 := mkScratchDir d fs1
  let fs3 := extractInto d (w.unzip body) fs2
  let fs4 := removeZipFile name fs3
  let fs5 := distribute failCopy d fs4
  if da then rmScratch d fs5 else fs5

/-- The terminal outcome of one batch (`finished` or `error` signal). -/
inductive Outcome where
  | success
  | invalidRoot
  | downloadFailed
deriving DecidableEq

/-- The result of a worker run: the outcome, the final filesystem, and the
trace of item names requested over the network, in request order. -/
structure RunResult where
  outcome : Outcome
  fs : InstallFS
  fetched : List String
deriving DecidableEq

/-- The `for name in self.items` loop of `Worker.run`.  `da i` is the value
`self.settings.get('delete_after', False)` returns when item `i` reads it. -/
def runLoop (w : World) (failCopy : FsPath → Bool) (da : Nat → Bool) :
    List String → Nat → InstallFS → List String → RunResult
  | [], _, fs, log => ⟨.success, fs, log⟩
  | name :: rest, i, fs, log =>
    let resp := w.fetch name
    if resp.status ≠ 200 then ⟨.downloadFailed, fs, log ++ [name]⟩
    else runLoop w failCopy da rest (i + 1)
      (processItemBody w failCopy (da i) name fs) (log ++ [name])

/-- `Worker.run`: the steam-root precondition check, then the item loop.
`settingsAt t` is the value of the shared settings record at its `t`-th
read: `steam_path` is read once at the start (read 0) and `delete_after`
once per item (item `i` is read `i + 1`). -/
def workerRun (w : World) (failCopy : FsPath → Bool)
    (settingsAt : Nat → SettingsRec) (items : List String) (fs : InstallFS) :
    RunResult :=
  let sp := (settingsAt 0).steam_path
  if sp = "" ∨ w.steamExePresent sp = false then ⟨.invalidRoot, fs, []⟩
  else runLoop w failCopy (fun i => (settingsAt (i + 1)).delete_after) items 0 fs []

/-- `Worker.run` when the settings record never changes during the run
(the behaviour the spec describes as a submission-time snapshot). -/
def workerRunSnapshot (w : World) (failCopy : FsPath → Bool) (s : SettingsRec)
    (items : List String) (fs : InstallFS) : RunResult :=
  workerRun w failCopy (fun _ => s) items fs

/-- The filesystem after successfully processing a prefix of the batch,
item `i` of the loop using `da i` for its `delete_after` read. -/
def runPrefix (w : World) (failCopy : FsPath → Bool) (da : Nat → Bool) :
    List String → Nat → InstallFS → InstallFS
  | [], _, fs => fs
  | name :: rest, i, fs =>
    runPrefix w failCopy da rest (i + 1) (processItemBody w failCopy (da i) name fs)

/-- The scratch files one item's extraction produces on its own
(used to state that extracted contents survive intact). -/
def itemScratch (w : World) (name : String) : List (FsPath × Content) :=
  setFold ((w.unzip (w.fetch name).body).map
    (fun e => (scratchName name :: e.1, e.2))) []

/-! ## The catalog listing (`DownloaderApp.fetch_files` in `main.py`) -/

/-- Lexicographic comparison of character lists by code point (how Python
compares strings), as an executable Bool. -/
def charListLe : List Char → List Char → Bool
  | [], _ => true
  | _ :: _, [] => false
  | a :: as, b :: bs =>
    if a < b then true else if b < a then false else charListLe as bs

/-- The sort key `x.lower()` of `sort(key=lambda x: x.lower())`. -/
def lowerKey (s : String) : List Char := s.toList.map Char.toLower

/-- The case-insensitive order used by `self.files.sort(key=lambda x: x.lower())`. -/
def lowerLe (a b : String) : Prop := charListLe (lowerKey a) (lowerKey b) = true

instance : DecidableRel lowerLe := fun a b =>
  inferInstanceAs (Decidable (charListLe (lowerKey a) (lowerKey b) = true))

theorem charListLe_total : ∀ x y, charListLe x y = true ∨ charListLe y x = true
  | [], _ => Or.inl rfl
  | _ :: _, [] => Or.inr rfl
  | a :: as, b :: bs => by
    rcases lt_trichotomy a b with h | h | h
    · left
      simp [charListLe, h]
    · subst h
      rcases charListLe_total as bs with h' | h'
      · left
        simp [charListLe, lt_irrefl, h']
      · right
        simp [charListLe, lt_irrefl, h']
    · right
      simp [charListLe, h]

theorem charListLe_trans : ∀ x y z, charListLe x y = true → charListLe y z = true →
    charListLe x z = true
  | [], _, _, _, _ => rfl
  | _ :: _, [], _, hxy, _ => by simp [charListLe] at hxy
  | _ :: _, _ :: _, [], _, hyz => by simp [charListLe] at hyz
  | a :: as, b :: bs, c :: cs, hxy, hyz => by
    rcases lt_trichotomy a b with hab | hab | hab
    · rcases lt_trichotomy b c with hbc | hbc | hbc
      · simp [charListLe, lt_trans hab hbc]
      · subst hbc
        simp [charListLe, hab]
      · simp [charListLe, hbc, not_lt_of_gt hbc] at hyz
    · subst hab
      rcases lt_trichotomy a c with hac | hac | hac
      · simp [charListLe, hac]
      · subst hac
        simp only [charListLe, lt_irrefl, if_neg (lt_irrefl a)] at hxy hyz ⊢
        exact charListLe_trans as bs cs hxy hyz
      · simp [charListLe, hac, not_lt_of_gt hac] at hyz
    · simp [charListLe, hab, not_lt_of_gt hab] at hxy

instance : IsTotal String lowerLe := ⟨fun x y => charListLe_total (lowerKey x) (lowerKey y)⟩

instance : IsTrans String lowerLe := ⟨fun _ _ _ h1 h2 => charListLe_trans _ _ _ h1 h2⟩

/-- `DownloaderApp.fetch_files`, after the HTTP layer: from the listing's
`name` fields keep those ending in `.zip`, then stable-sort by the
lowercased name (`sort` with `key=lambda x: x.lower()`). -/
def fetch_files (names : List String) : List String :=
  List.insertionSort lowerLe (names.filter (fun n => strEndsWith n ".zip"))

/-! ## Claim C6: catalog filtering and sorting -/

/-- C6 counterexample: `f['name'].endswith('.zip')` is case-sensitive, so
`"A.ZIP"` is dropped by the filter and the claim's example output
`["A.ZIP", "b.zip"]` is wrong: the code produces `["b.zip"]`. -/
theorem C6_counterexample :
    fetch_files ["b.zip", "A.ZIP", "c.txt"] = ["b.zip"]
    ∧ fetch_files ["b.zip", "A.ZIP", "c.txt"] ≠ ["A.ZIP", "b.zip"] := by
  refine ⟨by decide, by decide⟩

/-- C6 amended: the listing retains exactly the entries whose name ends in
`.zip` (case-sensitively) and stable-sorts the retained entries
case-insensitively by name; `["b.zip", "A.ZIP", "c.txt"]` yields
`["b.zip"]`, and among retained entries the sort ignores case, e.g.
`["B.zip", "a.zip"]` yields `["a.zip", "B.zip"]`. -/
theorem C6_amended_fetch_files_filter_sort (names : List String) :
    List.Perm (fetch_files names) (names.filter (fun n => strEndsWith n ".zip"))
    ∧ List.Sorted lowerLe (fetch_files names)
    ∧ fetch_files ["b.zip", "A.ZIP", "c.txt"] = ["b.zip"]
    ∧ fetch_files ["B.zip", "a.zip"] = ["a.zip", "B.zip"] := by
  refine ⟨List.perm_insertionSort _ _, List.sorted_insertionSort _ _, by decide, by decide⟩

/-! ## Claim C3: invalid installation root -/

/-- C3: if the installation root is empty or `steam.exe` is missing there,
`Worker.run` reports the invalid-root error immediately: no network request
is made (empty fetch trace) and the filesystem is untouched. -/
theorem C3_invalid_root (w : World) (failCopy : FsPath → Bool) (s : SettingsRec)
    (items : List String) (fs : InstallFS)
    (h : s.steam_path = "" ∨ w.steamExePresent s.steam_path = false) :
    workerRunSnapshot w failCopy s items fs = ⟨.invalidRoot, fs, []⟩ := by
  simp only [workerRunSnapshot, workerRun]
  rw [if_pos h]

/-- Witness for C3 at a concrete world whose `steam.exe` check fails. -/
theorem C3_invalid_root_witness :
    workerRunSnapshot ⟨fun _ => ⟨200, 0⟩, fun _ => [], fun _ => false⟩
      (fun _ => false) ⟨"C:/Steam", true, false, false, false⟩ ["a.zip"]
      ⟨[], [], [], false, false, [], []⟩
      = ⟨.invalidRoot, ⟨[], [], [], false, false, [], []⟩, []⟩ :=
  C3_invalid_root ⟨fun _ => ⟨200, 0⟩, fun _ => [], fun _ => false⟩
    (fun _ => false) ⟨"C:/Steam", true, false, false, false⟩ ["a.zip"]
    ⟨[], [], [], false, false, [], []⟩ (Or.inr rfl)

/-! ## Claim C7: the scratch directory name -/

/-- C7 counterexample: the code computes the scratch directory with
`name.replace('.zip','')`, which removes every occurrence of `.zip`;
for `"a.zip.zip"` this yields `"a"`, not the suffix-stripped `"a.zip"`
the claim describes. -/
theorem C7_counterexample :
    scratchName "a.zip.zip" = "a" ∧ stripZipSuffixSpec "a.zip.zip" = "a.zip"
    ∧ ("a" : String) ≠ "a.zip" := by
  refine ⟨by decide, by decide, by decide⟩

theorem stripZipAllFuel_nil : ∀ f : Nat, stripZipAllFuel f [] = []
  | 0 => rfl
  | _ + 1 => rfl

theorem zipPat_eq : ".zip".toList = ['.', 'z', 'i', 'p'] := by decide

theorem isPrefixOf_append_of_le {p l m : List Char} (h : p.length ≤ l.length) :
    p.isPrefixOf (l ++ m) = p.isPrefixOf l := by
  induction p generalizing l with
  | nil =>
    cases l with
    | nil => cases m <;> rfl
    | cons lh lt => rfl
  | cons ph pt ih =>
    cases l with
    | nil => simp at h
    | cons lh lt =>
      simp only [List.cons_append, List.isPrefixOf, List.append_eq]
      rw [ih (by simpa using h)]

theorem stripZipAllFuel_append (l : List Char) : ∀ f : Nat,
    l.length + 4 ≤ f → hasSub ".zip".toList l = false →
    stripZipAllFuel f (l ++ ".zip".toList) = l := by
  induction l with
  | nil =>
    intro f hf _
    cases f with
    | zero => omega
    | succ f' =>
      rw [zipPat_eq]
      show stripZipAllFuel (f' + 1) ('.' :: ['z', 'i', 'p']) = []
      simp only [stripZipAllFuel]
      rw [if_pos (by decide)]
      exact stripZipAllFuel_nil f'
  | cons c rest ih =>
    intro f hf hsub
    rw [hasSub, Bool.or_eq_false_iff] at hsub
    obtain ⟨hpre, hrest⟩ := hsub
    cases f with
    | zero => simp at hf
    | succ f' =>
      have hcond : (".zip".toList).isPrefixOf (c :: (rest ++ ".zip".toList)) = false := by
        rcases rest with _ | ⟨r1, _ | ⟨r2, _ | ⟨r3, rrest⟩⟩⟩
        · simp [zipPat_eq, List.isPrefixOf]
        · simp [zipPat_eq, List.isPrefixOf]
        · simp [zipPat_eq, List.isPrefixOf]
        · rw [show c :: (r1 :: r2 :: r3 :: rrest ++ ".zip".toList)
                = (c :: r1 :: r2 :: r3 :: rrest) ++ ".zip".toList from rfl,
            isPrefixOf_append_of_le (by simp [zipPat_eq])]
          exact hpre
      rw [List.cons_append]
      simp only [stripZipAllFuel]
      rw [if_neg (by rw [hcond]; exact Bool.false_ne_true)]
      have hfl : rest.length + 4 ≤ f' := by
        simp only [List.length_cons] at hf
        omega
      rw [ih f' hfl hrest]

theorem isPrefixOf_self_append (p m : List Char) : p.isPrefixOf (p ++ m) = true := by
  induction p with
  | nil => cases m <;> rfl
  | cons ph pt ih => simp [List.isPrefixOf, ih]

/-- C7 amended: the scratch directory is named by removing every occurrence
of the substring `.zip` from the item name (`name.replace('.zip','')`); when
`.zip` occurs in the name only as the trailing extension this coincides with
stripping the extension, as the spec describes. -/
theorem C7_amended_scratch_name (base : String)
    (h : hasSub ".zip".toList base.toList = false) :
    scratchName (base ++ ".zip") = base
    ∧ scratchName (base ++ ".zip") = stripZipSuffixSpec (base ++ ".zip") := by
  have hdata : (base ++ ".zip").toList = base.toList ++ ".zip".toList :=
    String.data_append base ".zip"
  have hlen : (base.toList ++ ".zip".toList).length = base.toList.length + 4 := by
    simp [zipPat_eq]
  have hmain : scratchName (base ++ ".zip") = base := by
    apply String.ext
    show stripZipAll (base ++ ".zip").toList = base.data
    rw [show (base ++ ".zip").toList = base.toList ++ ".zip".toList from hdata]
    unfold stripZipAll
    rw [hlen]
    exact stripZipAllFuel_append base.toList (base.toList.length + 4) (le_refl _) h
  refine ⟨hmain, ?_⟩
  rw [hmain]
  have hends : strEndsWith (base ++ ".zip") ".zip" = true := by
    unfold strEndsWith List.isSuffixOf
    rw [show (base ++ ".zip").toList = base.toList ++ ".zip".toList from hdata,
      List.reverse_append]
    exact isPrefixOf_self_append _ _
  rw [stripZipSuffixSpec, if_pos hends]
  apply String.ext
  show base.data = (base ++ ".zip").toList.take ((base ++ ".zip").toList.length - 4)
  rw [hdata, hlen]
  simp only [Nat.add_sub_cancel]
  exact (List.take_left _ _).symm

/-- Witness for the amended C7 at the item name `"a.b.zip"`. -/
theorem C7_amended_scratch_name_witness :
    hasSub ".zip".toList "a.b".toList = false
    ∧ scratchName ("a.b" ++ ".zip") = "a.b" :=
  ⟨by decide, (C7_amended_scratch_name "a.b" (by decide)).1⟩

/-! ## Claims C1 and C10: the distribution step -/

theorem oor_isSome {α : Type} (a b : Option α) :
    (oor a b).isSome = (a.isSome || b.isSome) := by
  cases a <;> rfl

theorem lastVal_isSome_of_mem {κ β : Type} [DecidableEq κ] (ws : List (κ × β))
    (k : κ) (v : β) (h : (k, v) ∈ ws) : (lastVal ws k).isSome = true := by
  induction ws with
  | nil => simp at h
  | cons kv t ih =>
    rw [lastVal_cons, oor_isSome]
    rcases List.mem_cons.mp h with h' | h'
    · rw [show kv.1 = k from congrArg Prod.fst h'.symm]
      simp
    · rw [ih h']
      rfl

theorem lastVal_some_mem {κ β : Type} [DecidableEq κ] (ws : List (κ × β))
    (k : κ) (v : β) (h : lastVal ws k = some v) : (k, v) ∈ ws := by
  induction ws with
  | nil => simp [lastVal] at h
  | cons kv t ih =>
    rw [lastVal_cons] at h
    cases hlv : lastVal t k with
    | some v' =>
      rw [hlv] at h
      exact List.mem_cons_of_mem _ (ih (hlv.trans (congrArg some (Option.some.inj h))))
    | none =>
      rw [hlv, oor_none_left] at h
      by_cases hk : kv.1 = k
      · rw [if_pos hk] at h
        have : kv = (k, v) := by
          obtain ⟨a, b⟩ := kv
          simp only at hk h
          rw [hk, Option.some.inj h]
        exact this ▸ List.mem_cons_self _ _
      · rw [if_neg hk] at h
        exact absurd h (by simp)

theorem distribute_depot (failCopy : FsPath → Bool) (d : String) (fs : InstallFS) :
    (distribute failCopy d fs).depot =
      setFold (manifestWrites failCopy (walkFiles d fs)) fs.depot := rfl

theorem distribute_plug (failCopy : FsPath → Bool) (d : String) (fs : InstallFS) :
    (distribute failCopy d fs).plug =
      setFold (luaWrites failCopy (walkFiles d fs)) fs.plug := rfl

theorem mem_manifestWrites (failCopy : FsPath → Bool) (files : List (FsPath × Content))
    (e : FsPath × Content) (he : e ∈ files)
    (hm : strEndsWith (basenameOf e.1) ".manifest" = true)
    (hf : failCopy e.1 = false) :
    (basenameOf e.1, e.2) ∈ manifestWrites failCopy files := by
  apply List.mem_filterMap.mpr
  exact ⟨e, he, by simp [hm, hf]⟩

theorem mem_luaWrites (failCopy : FsPath → Bool) (files : List (FsPath × Content))
    (e : FsPath × Content) (he : e ∈ files)
    (hm : strEndsWith (basenameOf e.1) ".lua" = true)
    (hf : failCopy e.1 = false) :
    (basenameOf e.1, e.2) ∈ luaWrites failCopy files := by
  apply List.mem_filterMap.mpr
  exact ⟨e, he, by simp [hm, hf]⟩

theorem manifestWrites_mem_inv (failCopy : FsPath → Bool)
    (files : List (FsPath × Content)) (b : String) (v : Content)
    (h : (b, v) ∈ manifestWrites failCopy files) :
    ∃ e ∈ files, basenameOf e.1 = b ∧ strEndsWith (basenameOf e.1) ".manifest" = true
      ∧ failCopy e.1 = false := by
  obtain ⟨e, he, hfe⟩ := List.mem_filterMap.mp h
  by_cases hc : (strEndsWith (basenameOf e.1) ".manifest" && !failCopy e.1) = true
  · rw [if_pos hc] at hfe
    obtain ⟨h1, h2⟩ := Bool.and_eq_true_iff.mp hc
    exact ⟨e, he, congrArg Prod.fst (Option.some.inj hfe), h1, by simpa using h2⟩
  · rw [if_neg hc] at hfe
    exact absurd hfe (by simp)

theorem luaWrites_mem_inv (failCopy : FsPath → Bool)
    (files : List (FsPath × Content)) (b : String) (v : Content)
    (h : (b, v) ∈ luaWrites failCopy files) :
    ∃ e ∈ files, basenameOf e.1 = b ∧ strEndsWith (basenameOf e.1) ".lua" = true
      ∧ failCopy e.1 = false := by
  obtain ⟨e, he, hfe⟩ := List.mem_filterMap.mp h
  by_cases hc : (strEndsWith (basenameOf e.1) ".lua" && !failCopy e.1) = true
  · rw [if_pos hc] at hfe
    obtain ⟨h1, h2⟩ := Bool.and_eq_true_iff.mp hc
    exact ⟨e, he, congrArg Prod.fst (Option.some.inj hfe), h1, by simpa using h2⟩
  · rw [if_neg hc] at hfe
    exact absurd hfe (by simp)

theorem runLoop_outcome_indep (w : World) (f1 f2 : FsPath → Bool)
    (da1 da2 : Nat → Bool) : ∀ (items : List String) (i1 i2 : Nat)
    (fs1 fs2 : InstallFS) (log1 log2 : List String),
    (runLoop w f1 da1 items i1 fs1 log1).outcome =
      (runLoop w f2 da2 items i2 fs2 log2).outcome := by
  intro items
  induction items with
  | nil => intro i1 i2 fs1 fs2 log1 log2; rfl
  | cons name rest ih =>
    intro i1 i2 fs1 fs2 log1 log2
    simp only [runLoop]
    by_cases h : (w.fetch name).status ≠ 200
    · rw [if_pos h, if_pos h]
    · rw [if_neg h, if_neg h]
      exact ih _ _ _ _ _ _

/-- C1: after extraction, the walk over the scratch directory copies every
`.manifest` file (overwriting) into `config/depotcache` and every `.lua`
file into `config/stplug-in`, creating both destination directories; files
with any other suffix are copied nowhere (the destinations change only
through classified files); and a per-file copy failure is swallowed — the
batch outcome never depends on which copies fail. -/
theorem C1_distribute_classifies (failCopy : FsPath → Bool) (d : String)
    (fs : InstallFS) :
    (∀ e ∈ walkFiles d fs, strEndsWith (basenameOf e.1) ".manifest" = true →
      failCopy e.1 = false →
      (lookupA (basenameOf e.1) (distribute failCopy d fs).depot).isSome = true)
    ∧ (∀ e ∈ walkFiles d fs, strEndsWith (basenameOf e.1) ".lua" = true →
      failCopy e.1 = false →
      (lookupA (basenameOf e.1) (distribute failCopy d fs).plug).isSome = true)
    ∧ (∀ b : String, lookupA b (distribute failCopy d fs).depot ≠ lookupA b fs.depot →
      ∃ e ∈ walkFiles d fs, basenameOf e.1 = b
        ∧ strEndsWith (basenameOf e.1) ".manifest" = true ∧ failCopy e.1 = false)
    ∧ (∀ b : String, lookupA b (distribute failCopy d fs).plug ≠ lookupA b fs.plug →
      ∃ e ∈ walkFiles d fs, basenameOf e.1 = b
        ∧ strEndsWith (basenameOf e.1) ".lua" = true ∧ failCopy e.1 = false)
    ∧ (distribute failCopy d fs).depotDirExists = true
    ∧ (distribute failCopy d fs).plugDirExists = true
    ∧ ∀ (w : World) (settingsAt : Nat → SettingsRec) (items : List String)
        (fs0 : InstallFS),
        (workerRun w failCopy settingsAt items fs0).outcome =
          (workerRun w (fun _ => false) settingsAt items fs0).outcome := by
  refine ⟨?_, ?_, ?_, ?_, rfl, rfl, ?_⟩
  · intro e he hm hf
    rw [distribute_depot, lookupA_setFold, oor_isSome]
    rw [lastVal_isSome_of_mem _ _ e.2
      (mem_manifestWrites failCopy (walkFiles d fs) e he hm hf)]
    rfl
  · intro e he hm hf
    rw [distribute_plug, lookupA_setFold, oor_isSome]
    rw [lastVal_isSome_of_mem _ _ e.2
      (mem_luaWrites failCopy (walkFiles d fs) e he hm hf)]
    rfl
  · intro b hne
    rw [distribute_depot, lookupA_setFold] at hne
    cases hlv : lastVal (manifestWrites failCopy (walkFiles d fs)) b with
    | none => rw [hlv, oor_none_left] at hne; exact absurd rfl hne
    | some v =>
      exact manifestWrites_mem_inv failCopy (walkFiles d fs) b v
        (lastVal_some_mem _ _ _ hlv)
  · intro b hne
    rw [distribute_plug, lookupA_setFold] at hne
    cases hlv : lastVal (luaWrites failCopy (walkFiles d fs)) b with
    | none => rw [hlv, oor_none_left] at hne; exact absurd rfl hne
    | some v =>
      exact luaWrites_mem_inv failCopy (walkFiles d fs) b v
        (lastVal_some_mem _ _ _ hlv)
  · intro w settingsAt items fs0
    simp only [workerRun]
    by_cases h : (settingsAt 0).steam_path = ""
      ∨ w.steamExePresent (settingsAt 0).steam_path = false
    · rw [if_pos h, if_pos h]
    · rw [if_neg h, if_neg h]
      exact runLoop_outcome_indep w failCopy (fun _ => false) _ _ _ _ _ _ _ _ _

/-- Witness for C1 on a concrete scratch tree holding a `.manifest`,
a `.lua` and a `.txt` file. -/
theorem C1_distribute_classifies_witness :
    (lookupA "a.manifest"
      (distribute (fun _ => false) "g"
        ⟨[], ["g"], [(["g", "a.manifest"], 1), (["g", "sub", "b.lua"], 2),
          (["g", "c.txt"], 3)], false, false, [], []⟩).depot).isSome = true
    ∧ (lookupA "b.lua"
      (distribute (fun _ => false) "g"
        ⟨[], ["g"], [(["g", "a.manifest"], 1), (["g", "sub", "b.lua"], 2),
          (["g", "c.txt"], 3)], false, false, [], []⟩).plug).isSome = true := by
  refine ⟨?_, ?_⟩
  · exact (C1_distribute_classifies (fun _ => false) "g"
      ⟨[], ["g"], [(["g", "a.manifest"], 1), (["g", "sub", "b.lua"], 2),
        (["g", "c.txt"], 3)], false, false, [], []⟩).1
      (["g", "a.manifest"], 1) (by decide) (by decide) (by decide)
  · exact (C1_distribute_classifies (fun _ => false) "g"
      ⟨[], ["g"], [(["g", "a.manifest"], 1), (["g", "sub", "b.lua"], 2),
        (["g", "c.txt"], 3)], false, false, [], []⟩).2.1
      (["g", "sub", "b.lua"], 2) (by decide) (by decide) (by decide)

/-- C10 (implicit): classified files are copied under their basename only —
the destination key of a `.manifest`/`.lua` file is `basenameOf` its path,
the relative path being discarded — and the destination's final content at a
basename is the value of the last write to that basename in walk order (a
later file with the same basename overwrites an earlier one, within one item
and, by composing the same equation, across items).  The concrete conjuncts
show a deeper-nested `x.manifest` visited later overwriting an earlier one
within one walk, and a second item's walk overwriting a first item's file. -/
theorem C10_basename_last_wins (failCopy : FsPath → Bool) (d : String)
    (fs : InstallFS) (b : String) :
    lookupA b (distribute failCopy d fs).depot =
      oor (lastVal (manifestWrites failCopy (walkFiles d fs)) b) (lookupA b fs.depot)
    ∧ lookupA b (distribute failCopy d fs).plug =
      oor (lastVal (luaWrites failCopy (walkFiles d fs)) b) (lookupA b fs.plug)
    ∧ (∀ e ∈ walkFiles d fs, strEndsWith (basenameOf e.1) ".manifest" = true →
        failCopy e.1 = false →
        (basenameOf e.1, e.2) ∈ manifestWrites failCopy (walkFiles d fs))
    ∧ lookupA "x.manifest"
        (distribute (fun _ => false) "g"
          ⟨[], ["g"], [(["g", "a", "x.manifest"], 1), (["g", "b", "x.manifest"], 2)],
            false, false, [], []⟩).depot = some 2
    ∧ lookupA "x.manifest"
        (distribute (fun _ => false) "h"
          (distribute (fun _ => false) "g"
            ⟨[], ["g", "h"], [(["g", "x.manifest"], 1), (["h", "deep", "x.manifest"], 2)],
              false, false, [], []⟩)).depot = some 2 := by
  refine ⟨?_, ?_, ?_, by decide, by decide⟩
  · rw [distribute_depot, lookupA_setFold]
  · rw [distribute_plug, lookupA_setFold]
  · intro e he hm hf
    exact mem_manifestWrites failCopy (walkFiles d fs) e he hm hf

/-- Witness for C10's conditional conjunct at a concrete walked file. -/
theorem C10_basename_last_wins_witness :
    (("m.manifest" : String), (5 : Content)) ∈
      manifestWrites (fun _ => false)
        (walkFiles "g" ⟨[], ["g"], [(["g", "sub", "m.manifest"], 5)],
          false, false, [], []⟩) := by
  have h := (C10_basename_last_wins (fun _ => false) "g"
    ⟨[], ["g"], [(["g", "sub", "m.manifest"], 5)], false, false, [], []⟩
    "m.manifest").2.2.1 (["g", "sub", "m.manifest"], 5) (by decide) (by decide)
    (by decide)
  exact h

/-! ## Claim C2: download failure aborts the batch -/

theorem runLoop_download_fail (w : World) (failCopy : FsPath → Bool)
    (da : Nat → Bool) : ∀ (items : List String) (i : Nat) (hi : i < items.length)
    (idx : Nat) (fs : InstallFS) (log : List String),
    (w.fetch (items.get ⟨i, hi⟩)).status ≠ 200 →
    (∀ j (hj : j < i), (w.fetch (items.get ⟨j, lt_trans hj hi⟩)).status = 200) →
    runLoop w failCopy da items idx fs log =
      ⟨.downloadFailed, runPrefix w failCopy da (items.take i) idx fs,
        log ++ items.take (i + 1)⟩ := by
  intro items
  induction items with
  | nil => intro i hi; exact absurd hi (by simp)
  | cons name rest ih =>
    intro i hi idx fs log hfail hok
    cases i with
    | zero =>
      simp only [List.get] at hfail
      simp only [runLoop, if_pos hfail, List.take_zero, runPrefix, List.take_succ_cons,
        List.take_zero]
    | succ i' =>
      have h0 : (w.fetch name).status = 200 := hok 0 (Nat.succ_pos i')
      simp only [runLoop, h0, ne_eq, not_true_eq_false, if_neg, ite_false]
      have hi' : i' < rest.length := Nat.lt_of_succ_lt_succ hi
      have := ih i' hi' (idx + 1) (processItemBody w failCopy (da idx) name fs)
        (log ++ [name]) hfail (fun j hj => hok (j + 1) (Nat.succ_lt_succ hj))
      rw [this]
      simp only [List.take_succ_cons, runPrefix, List.append_assoc, List.singleton_append]

/-- C2: if fetching item `i` (0-indexed) of the batch returns a non-200
response and all earlier fetches succeeded, the run reports the
download-failed outcome, exactly items `0..i` were requested in submission
order (later items are never downloaded), and the filesystem holds exactly
the effects of the successfully processed items `0..i-1`, not rolled back. -/
theorem C2_download_failure (w : World) (failCopy : FsPath → Bool) (s : SettingsRec)
    (items : List String) (fs : InstallFS) (i : Nat) (hi : i < items.length)
    (hroot : ¬(s.steam_path = "" ∨ w.steamExePresent s.steam_path = false))
    (hfail : (w.fetch (items.get ⟨i, hi⟩)).status ≠ 200)
    (hok : ∀ j (hj : j < i), (w.fetch (items.get ⟨j, lt_trans hj hi⟩)).status = 200) :
    (workerRunSnapshot w failCopy s items fs).outcome = .downloadFailed
    ∧ (workerRunSnapshot w failCopy s items fs).fetched = items.take (i + 1)
    ∧ (workerRunSnapshot w failCopy s items fs).fs =
        runPrefix w failCopy (fun _ => s.delete_after) (items.take i) 0 fs := by
  have hrun := runLoop_download_fail w failCopy (fun _ => s.delete_after) items i hi
    0 fs [] hfail hok
  simp only [workerRunSnapshot, workerRun, if_neg hroot]
  rw [hrun]
  exact ⟨rfl, List.nil_append _, rfl⟩

/-- Witness for C2: a three-item batch whose second item's fetch fails. -/
theorem C2_download_failure_witness :
    (workerRunSnapshot
      ⟨fun n => if n = "bad.zip" then ⟨404, 0⟩ else ⟨200, 0⟩, fun _ => [],
        fun _ => true⟩
      (fun _ => false) ⟨"C:/Steam", true, false, false, false⟩
      ["a.zip", "bad.zip", "c.zip"] ⟨[], [], [], false, false, [], []⟩).outcome
      = .downloadFailed
    ∧ (workerRunSnapshot
      ⟨fun n => if n = "bad.zip" then ⟨404, 0⟩ else ⟨200, 0⟩, fun _ => [],
        fun _ => true⟩
      (fun _ => false) ⟨"C:/Steam", true, false, false, false⟩
      ["a.zip", "bad.zip", "c.zip"] ⟨[], [], [], false, false, [], []⟩).fetched
      = ["a.zip", "bad.zip"] := by
  have h := C2_download_failure
    ⟨fun n => if n = "bad.zip" then ⟨404, 0⟩ else ⟨200, 0⟩, fun _ => [],
      fun _ => true⟩
    (fun _ => false) ⟨"C:/Steam", true, false, false, false⟩
    ["a.zip", "bad.zip", "c.zip"] ⟨[], [], [], false, false, [], []⟩ 1
    (by decide) (by decide) (by decide)
    (fun j hj => by
      have hj0 : j = 0 := by omega
      subst hj0
      rfl)
  exact ⟨h.1, h.2.1.trans (by decide)⟩

/-! ## Claim C9: settings are read live, not snapshotted -/

theorem runLoop_congr_da (w : World) (failCopy : FsPath → Bool)
    (da1 da2 : Nat → Bool) : ∀ (items : List String) (idx : Nat) (fs : InstallFS)
    (log : List String), (∀ t, t < items.length → da1 (idx + t) = da2 (idx + t)) →
    runLoop w failCopy da1 items idx fs log =
      runLoop w failCopy da2 items idx fs log := by
  intro items
  induction items with
  | nil => intro idx fs log _; rfl
  | cons name rest ih =>
    intro idx fs log h
    simp only [runLoop]
    by_cases hst : (w.fetch name).status ≠ 200
    · rw [if_pos hst, if_pos hst]
    · rw [if_neg hst, if_neg hst]
      have h0 : da1 idx = da2 idx := by
        have := h 0 (by simp)
        simpa using this
      rw [h0]
      exact ih (idx + 1) _ _ (fun t ht => by
        have := h (t + 1) (by simpa using Nat.succ_lt_succ ht)
        simpa [Nat.add_assoc, Nat.add_comm 1 t] using this)

/-- C9 counterexample: the worker does not snapshot the settings record.
Two settings histories that agree at submission time (read 0) but differ at
the later `delete_after` read produce different run results on the same
world, batch and filesystem: with the late value `true` the scratch
directory is deleted, with `false` it survives. -/
theorem C9_counterexample :
    (fun _ : Nat => (⟨"C:/Steam", true, false, false, false⟩ : SettingsRec)) 0 =
      (fun t : Nat => if t = 0 then (⟨"C:/Steam", true, false, false, false⟩ : SettingsRec)
        else ⟨"C:/Steam", true, true, false, false⟩) 0
    ∧ workerRun ⟨fun _ => ⟨200, 0⟩, fun _ => [(["f.lua"], 7)], fun _ => true⟩
        (fun _ => false)
        (fun _ => ⟨"C:/Steam", true, false, false, false⟩)
        ["game.zip"] ⟨[], [], [], false, false, [], []⟩
      ≠ workerRun ⟨fun _ => ⟨200, 0⟩, fun _ => [(["f.lua"], 7)], fun _ => true⟩
        (fun _ => false)
        (fun t => if t = 0 then ⟨"C:/Steam", true, false, false, false⟩
          else ⟨"C:/Steam", true, true, false, false⟩)
        ["game.zip"] ⟨[], [], [], false, false, [], []⟩ :=
  ⟨rfl, by decide⟩

/-- C9 amended: the item list is fixed at submission, but the settings are a
live reference to the shared record: the run reads `steam_path` once at the
start (read 0) and re-reads `delete_after` before each item's cleanup (item
`i` at read `i + 1`), and its behaviour depends on exactly those reads — two
settings histories agreeing on them produce identical runs, however they
differ elsewhere; so a change to the shared record between reads does affect
an already-running batch (see the counterexample). -/
theorem C9_amended_live_settings (w : World) (failCopy : FsPath → Bool)
    (items : List String) (fs : InstallFS) (env env' : Nat → SettingsRec)
    (h0 : (env 0).steam_path = (env' 0).steam_path)
    (h1 : ∀ i, i < items.length →
      (env (i + 1)).delete_after = (env' (i + 1)).delete_after) :
    workerRun w failCopy env items fs = workerRun w failCopy env' items fs := by
  simp only [workerRun, h0]
  by_cases hroot : (env' 0).steam_path = ""
    ∨ w.steamExePresent (env' 0).steam_path = false
  · rw [if_pos hroot, if_pos hroot]
  · rw [if_neg hroot, if_neg hroot]
    exact runLoop_congr_da w failCopy _ _ items 0 fs []
      (fun t ht => by simpa using h1 t ht)

/-- Witness for the amended C9: histories differing only after every read
the one-item run performs give identical results. -/
theorem C9_amended_live_settings_witness :
    workerRun ⟨fun _ => ⟨200, 0⟩, fun _ => [(["f.lua"], 7)], fun _ => true⟩
      (fun _ => false)
      (fun _ => ⟨"C:/Steam", true, false, false, false⟩)
      ["game.zip"] ⟨[], [], [], false, false, [], []⟩
    = workerRun ⟨fun _ => ⟨200, 0⟩, fun _ => [(["f.lua"], 7)], fun _ => true⟩
      (fun _ => false)
      (fun t => if t ≤ 1 then ⟨"C:/Steam", true, false, false, false⟩
        else ⟨"C:/Steam", true, true, false, false⟩)
      ["game.zip"] ⟨[], [], [], false, false, [], []⟩ :=
  C9_amended_live_settings _ (fun _ => false) ["game.zip"]
    ⟨[], [], [], false, false, [], []⟩ _ _ rfl
    (fun i hi => by
      have hi0 : i = 0 := by simpa using hi
      subst hi0
      rfl)

/-! ## Claim C8: scratch directories after a successful batch -/

/-- The `(path, content)` writes one item's extraction performs. -/
def itemWrites (w : World) (name : String) : List (FsPath × Content) :=
  (w.unzip (w.fetch name).body).map (fun e => (scratchName name :: e.1, e.2))

theorem itemScratch_eq (w : World) (name : String) :
    itemScratch w name = setFold (itemWrites w name) [] := rfl

theorem processItemBody_false_scratch (w : World) (failCopy : FsPath → Bool)
    (name : String) (fs : InstallFS) :
    (processItemBody w failCopy false name fs).scratch =
      setFold (itemWrites w name) fs.scratch := rfl

theorem processItemBody_false_scratchDirs (w : World) (failCopy : FsPath → Bool)
    (name : String) (fs : InstallFS) :
    (processItemBody w failCopy false name fs).scratchDirs =
      (if scratchName name ∈ fs.scratchDirs then fs.scratchDirs
        else fs.scratchDirs ++ [scratchName name]) := rfl

theorem processItemBody_true_scratch (w : World) (failCopy : FsPath → Bool)
    (name : String) (fs : InstallFS) :
    (processItemBody w failCopy true name fs).scratch =
      (setFold (itemWrites w name) fs.scratch).filter
        (fun e => e.1.head? ≠ some (scratchName name)) := rfl

theorem processItemBody_true_scratchDirs (w : World) (failCopy : FsPath → Bool)
    (name : String) (fs : InstallFS) :
    (processItemBody w failCopy true name fs).scratchDirs =
      (if scratchName name ∈ fs.scratchDirs then fs.scratchDirs
        else fs.scratchDirs ++ [scratchName name]).filter
        (fun x => x ≠ scratchName name) := rfl

theorem runLoop_success (w : World) (failCopy : FsPath → Bool) (da : Nat → Bool) :
    ∀ (items : List String) (idx : Nat) (fs : InstallFS) (log : List String),
    (∀ n ∈ items, (w.fetch n).status = 200) →
    runLoop w failCopy da items idx fs log =
      ⟨.success, runPrefix w failCopy da items idx fs, log ++ items⟩ := by
  intro items
  induction items with
  | nil => intro idx fs log _; simp [runLoop, runPrefix]
  | cons name rest ih =>
    intro idx fs log h
    have h0 : (w.fetch name).status = 200 := h name (List.mem_cons_self _ _)
    simp only [runLoop, h0, ne_eq, not_true_eq_false, if_neg, ite_false]
    rw [ih (idx + 1) _ (log ++ [name]) (fun n hn => h n (List.mem_cons_of_mem _ hn))]
    simp only [runPrefix, List.append_assoc, List.singleton_append]

theorem processItemBody_clean (w : World) (failCopy : FsPath → Bool) (name : String)
    (fs : InstallFS) (h1 : fs.scratch = []) (h2 : fs.scratchDirs = []) :
    (processItemBody w failCopy true name fs).scratch = []
    ∧ (processItemBody w failCopy true name fs).scratchDirs = [] := by
  constructor
  · rw [processItemBody_true_scratch, h1]
    apply List.filter_eq_nil_iff.mpr
    intro e he
    rcases mem_setFold _ _ _ he with h' | h'
    · simp at h'
    · simp only [itemWrites, List.map_map, List.mem_map, Function.comp] at h'
      obtain ⟨x, _, hx⟩ := h'
      simp [← hx]
  · rw [processItemBody_true_scratchDirs, h2]
    simp

theorem runPrefix_clean (w : World) (failCopy : FsPath → Bool) :
    ∀ (items : List String) (idx : Nat) (fs : InstallFS),
    fs.scratch = [] → fs.scratchDirs = [] →
    (runPrefix w failCopy (fun _ => true) items idx fs).scratch = []
    ∧ (runPrefix w failCopy (fun _ => true) items idx fs).scratchDirs = [] := by
  intro items
  induction items with
  | nil => intro idx fs h1 h2; exact ⟨h1, h2⟩
  | cons name rest ih =>
    intro idx fs h1 h2
    obtain ⟨g1, g2⟩ := processItemBody_clean w failCopy name fs h1 h2
    exact ih (idx + 1) _ g1 g2

theorem runPrefix_false_dirs_mono (w : World) (failCopy : FsPath → Bool) (d : String) :
    ∀ (items : List String) (idx : Nat) (fs : InstallFS), d ∈ fs.scratchDirs →
    d ∈ (runPrefix w failCopy (fun _ => false) items idx fs).scratchDirs := by
  intro items
  induction items with
  | nil => intro idx fs h; exact h
  | cons name rest ih =>
    intro idx fs h
    apply ih (idx + 1)
    rw [processItemBody_false_scratchDirs]
    by_cases hmem : scratchName name ∈ fs.scratchDirs
    · rw [if_pos hmem]; exact h
    · rw [if_neg hmem]; exact List.mem_append_left _ h

theorem runPrefix_false_dirs_mem (w : World) (failCopy : FsPath → Bool) (n : String) :
    ∀ (items : List String) (idx : Nat) (fs : InstallFS), n ∈ items →
    scratchName n ∈ (runPrefix w failCopy (fun _ => false) items idx fs).scratchDirs := by
  intro items
  induction items with
  | nil => intro idx fs h; simp at h
  | cons name rest ih =>
    intro idx fs hmem
    rcases List.mem_cons.mp hmem with heq | h'
    · subst heq
      show scratchName n ∈ (runPrefix w failCopy (fun _ => false) rest (idx + 1)
        (processItemBody w failCopy false n fs)).scratchDirs
      apply runPrefix_false_dirs_mono
      rw [processItemBody_false_scratchDirs]
      by_cases hm : scratchName n ∈ fs.scratchDirs
      · rw [if_pos hm]; exact hm
      · rw [if_neg hm]; simp
    · exact ih (idx + 1) _ h'

theorem runPrefix_false_scratch_lookup (w : World) (failCopy : FsPath → Bool)
    (name : String) (p : FsPath) (hp : p.head? = some (scratchName name)) :
    ∀ (items : List String) (idx : Nat) (fs : InstallFS),
    (∀ m ∈ items, scratchName m = scratchName name → m = name) →
    lookupA p (runPrefix w failCopy (fun _ => false) items idx fs).scratch =
      (if name ∈ items then
        oor (lastVal (itemWrites w name) p) (lookupA p fs.scratch)
      else lookupA p fs.scratch) := by
  intro items
  induction items with
  | nil => intro idx fs _; simp [runPrefix]
  | cons m rest ih =>
    intro idx fs hinj
    show lookupA p (runPrefix w failCopy (fun _ => false) rest (idx + 1)
      (processItemBody w failCopy false m fs)).scratch = _
    by_cases hsm : scratchName m = scratchName name
    · have hm : m = name := hinj m (List.mem_cons_self _ _) hsm
      subst hm
      rw [ih (idx + 1) _ (fun x hx h => hinj x (List.mem_cons_of_mem _ hx) h)]
      rw [processItemBody_false_scratch, lookupA_setFold]
      by_cases hmem : m ∈ rest
      · rw [if_pos hmem, if_pos (List.mem_cons_self _ _)]
        exact oor_self_absorb _ _
      · rw [if_neg hmem, if_pos (List.mem_cons_self _ _)]
    · have hmne : m ≠ name := fun h => hsm (by rw [h])
      rw [ih (idx + 1) _ (fun x hx h => hinj x (List.mem_cons_of_mem _ hx) h)]
      have hlook : lookupA p (processItemBody w failCopy false m fs).scratch =
          lookupA p fs.scratch := by
        rw [processItemBody_false_scratch, lookupA_setFold, lastVal_eq_none, oor_none_left]
        intro kv hkv
        simp only [itemWrites, List.mem_map] at hkv
        obtain ⟨x, _, hx⟩ := hkv
        intro hkp
        apply hsm
        have hhead : kv.1.head? = some (scratchName m) := by
          rw [← hx]
          rfl
        rw [hkp, hp] at hhead
        exact (Option.some.inj hhead).symm
      rw [hlook]
      by_cases hmem : name ∈ rest
      · rw [if_pos hmem, if_pos (List.mem_cons_of_mem _ hmem)]
      · rw [if_neg hmem, if_neg (fun h => by
          rcases List.mem_cons.mp h with h' | h'
          · exact hmne h'.symm
          · exact hmem h')]

/-- C8: for a batch in which every fetch succeeds (so the run returns the
success outcome), starting from a fresh cache: with `delete_after = true`
no item's scratch directory exists afterwards (and the scratch area is
empty); with `delete_after = false` each item's scratch directory still
exists and holds exactly that item's extracted contents — the distribution
step modified none of them.  Items whose names collapse to the same scratch
directory are excluded by hypothesis `hinj`. -/
theorem C8_delete_after (w : World) (failCopy : FsPath → Bool) (s : SettingsRec)
    (items : List String) (fs : InstallFS)
    (hroot : ¬(s.steam_path = "" ∨ w.steamExePresent s.steam_path = false))
    (h200 : ∀ n ∈ items, (w.fetch n).status = 200)
    (hfresh1 : fs.scratch = []) (hfresh2 : fs.scratchDirs = [])
    (hinj : ∀ m1 ∈ items, ∀ m2 ∈ items, scratchName m1 = scratchName m2 → m1 = m2) :
    (workerRunSnapshot w failCopy s items fs).outcome = .success
    ∧ (s.delete_after = true → ∀ n ∈ items,
        scratchName n ∉ (workerRunSnapshot w failCopy s items fs).fs.scratchDirs
        ∧ ∀ p : FsPath, lookupA p (workerRunSnapshot w failCopy s items fs).fs.scratch = none)
    ∧ (s.delete_after = false → ∀ n ∈ items,
        scratchName n ∈ (workerRunSnapshot w failCopy s items fs).fs.scratchDirs
        ∧ ∀ p : FsPath, p.head? = some (scratchName n) →
          lookupA p (workerRunSnapshot w failCopy s items fs).fs.scratch =
            lookupA p (itemScratch w n)) := by
  have hda_run : workerRunSnapshot w failCopy s items fs =
      ⟨.success, runPrefix w failCopy (fun _ => s.delete_after) items 0 fs,
        [] ++ items⟩ := by
    simp only [workerRunSnapshot, workerRun, if_neg hroot]
    exact runLoop_success w failCopy _ items 0 fs [] h200
  refine ⟨by rw [hda_run], ?_, ?_⟩
  · intro hda n _
    rw [hda_run]
    show scratchName n ∉ (runPrefix w failCopy (fun _ => s.delete_after)
        items 0 fs).scratchDirs
      ∧ ∀ p : FsPath, lookupA p (runPrefix w failCopy (fun _ => s.delete_after)
        items 0 fs).scratch = none
    rw [show (fun _ : Nat => s.delete_after) = (fun _ : Nat => true) from
      funext fun _ => hda]
    obtain ⟨g1, g2⟩ := runPrefix_clean w failCopy items 0 fs hfresh1 hfresh2
    refine ⟨by rw [g2]; simp, fun p => by rw [g1]; rfl⟩
  · intro hda n hn
    rw [hda_run]
    show scratchName n ∈ (runPrefix w failCopy (fun _ => s.delete_after)
        items 0 fs).scratchDirs
      ∧ ∀ p : FsPath, p.head? = some (scratchName n) →
        lookupA p (runPrefix w failCopy (fun _ => s.delete_after)
          items 0 fs).scratch = lookupA p (itemScratch w n)
    rw [show (fun _ : Nat => s.delete_after) = (fun _ : Nat => false) from
      funext fun _ => hda]
    refine ⟨runPrefix_false_dirs_mem w failCopy n items 0 fs hn, fun p hp => ?_⟩
    rw [runPrefix_false_scratch_lookup w failCopy n p hp items 0 fs
      (fun m hm h => hinj m hm n hn h)]
    rw [if_pos hn, hfresh1, itemScratch_eq, lookupA_setFold]

/-- Witness for C8: a successful one-item run with `delete_after = false`
keeps the scratch directory. -/
theorem C8_delete_after_witness :
    (workerRunSnapshot ⟨fun _ => ⟨200, 0⟩, fun _ => [(["f.lua"], 7)], fun _ => true⟩
      (fun _ => false) ⟨"C:/Steam", true, false, false, false⟩ ["g.zip"]
      ⟨[], [], [], false, false, [], []⟩).outcome = .success
    ∧ scratchName "g.zip" ∈
      (workerRunSnapshot ⟨fun _ => ⟨200, 0⟩, fun _ => [(["f.lua"], 7)], fun _ => true⟩
        (fun _ => false) ⟨"C:/Steam", true, false, false, false⟩ ["g.zip"]
        ⟨[], [], [], false, false, [], []⟩).fs.scratchDirs := by
  have h := C8_delete_after ⟨fun _ => ⟨200, 0⟩, fun _ => [(["f.lua"], 7)], fun _ => true⟩
    (fun _ => false) ⟨"C:/Steam", true, false, false, false⟩ ["g.zip"]
    ⟨[], [], [], false, false, [], []⟩ (by decide) (by decide) rfl rfl (by decide)
  exact ⟨h.1, (h.2.2 rfl "g.zip" (List.mem_cons_self _ _)).1⟩

/-! ## The overlay applier (`DownloaderApp.insert_online_fix` in `main.py`) -/

/-- One directory entry: a plain file, or a directory together with the
files below it (keyed by relative path; subdirectories are implicit). -/
inductive Entry where
  | file (c : Content)
  | dir (tree : List (FsPath × Content))
deriving DecidableEq

/-- `os.path.isdir` on an entry. -/
def Entry.isDir : Entry → Bool
  | .file _ => false
  | .dir _ => true

/-- The user-chosen target game directory: top-level entries in
`os.listdir` order. -/
structure Target where
  entries : List (String × Entry)
deriving DecidableEq

/-- The overlay source directory `Files/OnlineFix`: top-level entries in
`os.listdir` order. -/
structure OverlaySrc where
  entries : List (String × Entry)
deriving DecidableEq

/-- `'data' in name.lower()`. -/
def containsData (s : String) : Bool :=
  hasSub "data".toList (s.toList.map Char.toLower)

/-- `item.lower() == 'data'`: the reserved-subdirectory test of the
top-level copy loop. -/
def lowerIsData (s : String) : Bool :=
  s.toList.map Char.toLower == "data".toList

/-- One candidate test of the data-folder discovery loop: the name contains
`data` case-insensitively and the entry is a directory. -/
def matchesData (q : String × Entry) : Bool := containsData q.1 && q.2.isDir

/-- The data-folder discovery loop (`for name in os.listdir(target)`):
the first matching directory in listing order wins. -/
def findData (t : Target) : Option String :=
  (t.entries.find? matchesData).map (fun q => q.1)

/-- One iteration of the top-level copy loop for overlay entry `(n, e)`.
Entries named `data` (case-insensitively) are skipped.  A directory is
copied by `shutil.rmtree(dest)` (when `dest` exists) then
`shutil.copytree` — but `rmtree` on a non-directory raises, aborting the
loop (`none`).  A file is copied by `shutil.copy2`, which drops the file
*into* an existing directory of that name (`dest/<n>`). -/
def copyTopStep (t : Target) (n : String) (e : Entry) : Option Target :=
  if lowerIsData n then some t
  else
    match e with
    | .file c =>
      match lookupA n t.entries with
      | some (.dir tr) => some ⟨setA n (.dir (setA [n] c tr)) t.entries⟩
      | _ => some ⟨setA n (.file c) t.entries⟩
    | .dir tr =>
      match lookupA n t.entries with
      | some (.file _) => none
      | _ => some ⟨setA n (.dir tr) t.entries⟩

/-- The `for item in os.listdir(src)` loop; an exception mid-loop leaves
the writes already made in place (`.error` carries the partial target). -/
def copyTopList : List (String × Entry) → Target → Except Target Target
  | [], t => .ok t
  | (n, e) :: rest, t =>
    match copyTopStep t n e with
    | none => .error t
    | some t' => copyTopList rest t'

/-- The `os.walk(src_data)` merge loop: copy every file below `Data` to the
same relative path below the data folder, swallowing per-file copy
failures (`try/except: pass`). -/
def mergeTree (failCopy : FsPath → Bool) (dtree : List (FsPath × Content))
    (tr : List (FsPath × Content)) : List (FsPath × Content) :=
  dtree.foldl (fun acc pc => if failCopy pc.1 then acc else setA pc.1 pc.2 acc) tr

/-- The terminal outcome of one overlay application, following the spec's
naming for the message-box messages of `insert_online_fix`. -/
inductive FixOutcome where
  | ok
  | unsupportedTarget
  | missingOverlayAssets
  | overlayApplyFailed
deriving DecidableEq

/-- `DownloaderApp.insert_online_fix`, after the directory picker: the
`UnityCrashHandler64.exe` marker check, the data-folder discovery, the
overlay-source existence checks (`Files/OnlineFix` and its `Data`
subdirectory), the top-level copy loop and the `Data` merge.  Returns the
outcome together with the resulting target (unchanged whenever a
precondition fails). -/
def insert_online_fix (ovOpt : Option OverlaySrc) (failCopy : FsPath → Bool)
    (t : Target) : FixOutcome × Target :=
  if (lookupA "UnityCrashHandler64.exe" t.entries).isNone then (.unsupportedTarget, t)
  else
    match findData t with
    | none => (.unsupportedTarget, t)
    | some dname =>
      match ovOpt with
      | none => (.missingOverlayAssets, t)
      | some ov =>
        match lookupA "Data" ov.entries with
        | some (.dir dtree) =>
          match copyTopList ov.entries t with
          | .error tPart => (.overlayApplyFailed, tPart)
          | .ok t1 =>
            match lookupA dname t1.entries with
            | some (.dir tr) =>
              (.ok, ⟨setA dname (.dir (mergeTree failCopy dtree tr)) t1.entries⟩)
            | _ => (.overlayApplyFailed, t1)
        | _ => (.missingOverlayAssets, t)

/-- The file found at a path below a target: a top-level file at `[n]`,
a file inside a subdirectory at `n :: rel`. -/
def Target.fileAt (t : Target) (p : FsPath) : Option Content :=
  match p with
  | [] => none
  | n :: rest =>
    match lookupA n t.entries with
    | some (.file c) => if rest.isEmpty then some c else none
    | some (.dir tr) => if rest.isEmpty then none else lookupA rest tr
    | none => none

/-! ## Claim C5: overlay preconditions -/

/-- C5: the overlay applier checks its preconditions before writing
anything: a missing `UnityCrashHandler64.exe` marker fails with the
unsupported-target outcome; with the marker present but no directory whose
name contains `data` case-insensitively it also fails with
unsupported-target; the first matching directory in listing order is the
one discovered when several match; a missing overlay source, or a `Data`
entry that is missing or not a directory, fails with
missing-overlay-assets — and in every failing case the returned target is
exactly the input target (zero writes). -/
theorem C5_overlay_preconditions (ovOpt : Option OverlaySrc)
    (failCopy : FsPath → Bool) (t : Target) :
    ((lookupA "UnityCrashHandler64.exe" t.entries).isNone = true →
      insert_online_fix ovOpt failCopy t = (.unsupportedTarget, t))
    ∧ ((lookupA "UnityCrashHandler64.exe" t.entries).isNone = false →
      findData t = none →
      insert_online_fix ovOpt failCopy t = (.unsupportedTarget, t))
    ∧ (∀ (l1 : List (String × Entry)) (n : String) (e : Entry)
        (l2 : List (String × Entry)), t.entries = l1 ++ (n, e) :: l2 →
      (∀ q ∈ l1, matchesData q = false) → matchesData (n, e) = true →
      findData t = some n)
    ∧ (∀ dname : String, (lookupA "UnityCrashHandler64.exe" t.entries).isNone = false →
      findData t = some dname →
      (ovOpt = none ∨ ∃ ov, ovOpt = some ov ∧
        (∀ dtree, lookupA "Data" ov.entries ≠ some (.dir dtree))) →
      insert_online_fix ovOpt failCopy t = (.missingOverlayAssets, t)) := by
  refine ⟨?_, ?_, ?_, ?_⟩
  · intro h
    rw [insert_online_fix, if_pos h]
  · intro h hfd
    rw [insert_online_fix, if_neg (by rw [h]; exact Bool.false_ne_true), hfd]
  · intro l1 n e l2 ht hnone hpos
    rw [findData, ht, List.find?_append,
      List.find?_eq_none.mpr (fun x hx => by rw [hnone x hx]; exact Bool.false_ne_true),
      List.find?_cons_of_pos _ hpos]
    rfl
  · intro dname h hfd hov
    rcases hov with rfl | ⟨ov, rfl, hdata⟩
    · simp [insert_online_fix, h, hfd]
    · cases hl : lookupA "Data" ov.entries with
      | none => simp [insert_online_fix, h, hfd, hl]
      | some v =>
        cases v with
        | file c => simp [insert_online_fix, h, hfd, hl]
        | dir dtree => exact absurd hl (hdata dtree)

/-- Witness for C5: each failing precondition exercised on concrete
targets, plus first-match discovery among two matching directories. -/
theorem C5_overlay_preconditions_witness :
    insert_online_fix (some ⟨[("Data", .dir [])]⟩) (fun _ => false)
      ⟨[("GameData", .dir [])]⟩ = (.unsupportedTarget, ⟨[("GameData", .dir [])]⟩)
    ∧ insert_online_fix (some ⟨[("Data", .dir [])]⟩) (fun _ => false)
      ⟨[("UnityCrashHandler64.exe", .file 0)]⟩
      = (.unsupportedTarget, ⟨[("UnityCrashHandler64.exe", .file 0)]⟩)
    ∧ findData ⟨[("x.txt", .file 0), ("mydata.txt", .file 1), ("GameData", .dir []),
        ("Data2", .dir [])]⟩ = some "GameData"
    ∧ insert_online_fix none (fun _ => false)
      ⟨[("UnityCrashHandler64.exe", .file 0), ("Data", .dir [])]⟩
      = (.missingOverlayAssets,
        ⟨[("UnityCrashHandler64.exe", .file 0), ("Data", .dir [])]⟩) := by
  refine ⟨?_, ?_, ?_, ?_⟩
  · exact (C5_overlay_preconditions (some ⟨[("Data", .dir [])]⟩) (fun _ => false)
      ⟨[("GameData", .dir [])]⟩).1 (by decide)
  · exact (C5_overlay_preconditions (some ⟨[("Data", .dir [])]⟩) (fun _ => false)
      ⟨[("UnityCrashHandler64.exe", .file 0)]⟩).2.1 (by decide) (by decide)
  · exact (C5_overlay_preconditions none (fun _ => false)
      ⟨[("x.txt", .file 0), ("mydata.txt", .file 1), ("GameData", .dir []),
        ("Data2", .dir [])]⟩).2.2.1
      [("x.txt", .file 0), ("mydata.txt", .file 1)] "GameData" (.dir [])
      [("Data2", .dir [])] rfl (by decide) (by decide)
  · exact (C5_overlay_preconditions none (fun _ => false)
      ⟨[("UnityCrashHandler64.exe", .file 0), ("Data", .dir [])]⟩).2.2.2
      "Data" (by decide) (by decide) (Or.inl rfl)

/-! ## Claim C4: the overlay copy and its idempotence -/

/-- C4 counterexample: a target satisfying every validity condition the
claim lists (marker present, data subdirectory found, overlay source and
its reserved subdirectory present) on which apply does *not* copy the
non-reserved overlay entries: the overlay's directory `Patch` collides
with a target *file* `Patch`, so `shutil.rmtree(dest)` raises and the
whole apply aborts with the overlay-apply-failed outcome, copying
nothing. -/
theorem C4_counterexample :
    (lookupA "UnityCrashHandler64.exe"
      [("UnityCrashHandler64.exe", Entry.file 0), ("Data", Entry.dir []),
        ("Patch", Entry.file 1)]).isNone = false
    ∧ findData ⟨[("UnityCrashHandler64.exe", Entry.file 0), ("Data", Entry.dir []),
        ("Patch", Entry.file 1)]⟩ = some "Data"
    ∧ lookupA "Data" [("Patch", Entry.dir [(["x.dll"], 2)]),
        ("Data", Entry.dir [(["of.ini"], 3)])] = some (Entry.dir [(["of.ini"], 3)])
    ∧ insert_online_fix
        (some ⟨[("Patch", Entry.dir [(["x.dll"], 2)]),
          ("Data", Entry.dir [(["of.ini"], 3)])]⟩)
        (fun _ => false)
        ⟨[("UnityCrashHandler64.exe", Entry.file 0), ("Data", Entry.dir []),
          ("Patch", Entry.file 1)]⟩
      = (.overlayApplyFailed,
        ⟨[("UnityCrashHandler64.exe", Entry.file 0), ("Data", Entry.dir []),
          ("Patch", Entry.file 1)]⟩)
    ∧ lookupA "Patch"
        (insert_online_fix
          (some ⟨[("Patch", Entry.dir [(["x.dll"], 2)]),
            ("Data", Entry.dir [(["of.ini"], 3)])]⟩)
          (fun _ => false)
          ⟨[("UnityCrashHandler64.exe", Entry.file 0), ("Data", Entry.dir []),
            ("Patch", Entry.file 1)]⟩).2.entries
      ≠ some (Entry.dir [(["x.dll"], 2)]) := by
  refine ⟨by decide, by decide, by decide, by decide, by decide⟩

/-- The kind (file vs directory) of an overlay entry is compatible with what
the target already holds under that name: `rmtree` never meets a file and
`copy2` never meets a directory. -/
def kindCompat : Option Entry → Entry → Bool
  | some (.file _), .dir _ => false
  | some (.dir _), .file _ => false
  | _, _ => true

/-- The listing shape relevant to the marker check and the data-folder
discovery: entry names with their directory status. -/
def shapeOf (l : List (String × Entry)) : List (String × Bool) :=
  l.map (fun q => (q.1, q.2.isDir))

/-- The names the top-level copy loop writes (reserved entries skipped). -/
def writtenNames (es : List (String × Entry)) : List String :=
  (es.filter (fun q => !lowerIsData q.1)).map Prod.fst

theorem mem_of_mem_writtenNames (es : List (String × Entry)) (m : String)
    (h : m ∈ writtenNames es) : m ∈ es.map Prod.fst := by
  obtain ⟨q, hq, rfl⟩ := List.mem_map.mp h
  exact List.mem_map_of_mem _ (List.mem_of_mem_filter hq)

theorem writtenNames_cons_skip (n : String) (e : Entry) (es : List (String × Entry))
    (h : lowerIsData n = true) : writtenNames ((n, e) :: es) = writtenNames es := by
  simp [writtenNames, List.filter_cons, h]

theorem writtenNames_cons_write (n : String) (e : Entry) (es : List (String × Entry))
    (h : lowerIsData n = false) :
    writtenNames ((n, e) :: es) = n :: writtenNames es := by
  simp [writtenNames, List.filter_cons, h]

theorem setA_of_lookup_none {κ β : Type} [DecidableEq κ] (k : κ) (v : β)
    (l : List (κ × β)) (h : lookupA k l = none) : setA k v l = l ++ [(k, v)] := by
  induction l with
  | nil => rfl
  | cons a t ih =>
    obtain ⟨a1, a2⟩ := a
    by_cases hk : a1 = k
    · rw [lookupA, if_pos hk] at h
      exact absurd h (by simp)
    · rw [lookupA, if_neg hk] at h
      rw [setA, if_neg hk, ih h]
      rfl

theorem shapeOf_setA_same (n : String) (e old : Entry) (l : List (String × Entry))
    (h : lookupA n l = some old) (hdir : old.isDir = e.isDir) :
    shapeOf (setA n e l) = shapeOf l := by
  induction l with
  | nil => simp [lookupA] at h
  | cons a t ih =>
    obtain ⟨a1, a2⟩ := a
    by_cases hk : a1 = n
    · rw [lookupA, if_pos hk] at h
      have ha2 : a2 = old := Option.some.inj h
      subst ha2
      subst hk
      rw [setA, if_pos rfl]
      simp [shapeOf, hdir]
    · rw [lookupA, if_neg hk] at h
      rw [setA, if_neg hk]
      simp only [shapeOf, List.map_cons] at *
      rw [ih h]

theorem lookupA_of_mem_nodup {κ β : Type} [DecidableEq κ] (l : List (κ × β))
    (q : κ × β) (hq : q ∈ l) (hnd : (l.map Prod.fst).Nodup) :
    lookupA q.1 l = some q.2 := by
  induction l with
  | nil => simp at hq
  | cons a t ih =>
    rw [List.map_cons, List.nodup_cons] at hnd
    rcases List.mem_cons.mp hq with rfl | hq'
    · rw [lookupA, if_pos rfl]
    · have hne : a.1 ≠ q.1 := by
        intro h
        exact hnd.1 (h ▸ List.mem_map_of_mem Prod.fst hq')
      rw [lookupA, if_neg hne]
      exact ih hq' hnd.2

theorem lastVal_of_mem_nodup {κ β : Type} [DecidableEq κ] (ws : List (κ × β))
    (q : κ × β) (hq : q ∈ ws) (hnd : (ws.map Prod.fst).Nodup) :
    lastVal ws q.1 = some q.2 := by
  induction ws with
  | nil => simp at hq
  | cons a t ih =>
    rw [List.map_cons, List.nodup_cons] at hnd
    rw [lastVal_cons]
    rcases List.mem_cons.mp hq with rfl | hq'
    · rw [lastVal_eq_none t q.1 (fun kv hkv => by
        intro h
        exact hnd.1 (h ▸ List.mem_map_of_mem Prod.fst hkv)), if_pos rfl]
      rfl
    · rw [ih hq' hnd.2]
      rfl

theorem mergeTree_eq_setFold (failCopy : FsPath → Bool)
    (dtree : List (FsPath × Content)) : ∀ tr : List (FsPath × Content),
    mergeTree failCopy dtree tr =
      setFold (dtree.filter (fun pc => !failCopy pc.1)) tr := by
  induction dtree with
  | nil => intro tr; rfl
  | cons pc rest ih =>
    intro tr
    by_cases hf : failCopy pc.1 = true
    · show mergeTree failCopy rest (if failCopy pc.1 then tr else setA pc.1 pc.2 tr) = _
      rw [if_pos hf, List.filter_cons, ih]
      simp [hf]
    · have hf' : failCopy pc.1 = false := by
        cases hfc : failCopy pc.1
        · rfl
        · exact absurd hfc hf
      show mergeTree failCopy rest (if failCopy pc.1 then tr else setA pc.1 pc.2 tr) = _
      rw [if_neg (by rw [hf']; exact Bool.false_ne_true), List.filter_cons, ih]
      simp [hf', setFold]

theorem copyTopStep_eq (t : Target) (n : String) (e : Entry)
    (hld : lowerIsData n = false)
    (hc : kindCompat (lookupA n t.entries) e = true) :
    copyTopStep t n e = some ⟨setA n e t.entries⟩ := by
  cases e with
  | file c =>
    cases hl : lookupA n t.entries with
    | none => simp [copyTopStep, hld, hl]
    | some v =>
      cases v with
      | file c' => simp [copyTopStep, hld, hl]
      | dir tr =>
        rw [hl] at hc
        simp [kindCompat] at hc
  | dir tr =>
    cases hl : lookupA n t.entries with
    | none => simp [copyTopStep, hld, hl]
    | some v =>
      cases v with
      | file c' =>
        rw [hl] at hc
        simp [kindCompat] at hc
      | dir tr' => simp [copyTopStep, hld, hl]

theorem copyTopList_fixpoint (es : List (String × Entry)) : ∀ t : Target,
    (∀ q ∈ es, lowerIsData q.1 = false → lookupA q.1 t.entries = some q.2) →
    copyTopList es t = .ok t := by
  induction es with
  | nil => intro t _; rfl
  | cons qe rest ih =>
    obtain ⟨n, e⟩ := qe
    intro t h
    cases hld : lowerIsData n with
    | true =>
      have hstep : copyTopStep t n e = some t := by simp [copyTopStep, hld]
      simp only [copyTopList, hstep]
      exact ih t (fun q hq hq2 => h q (List.mem_cons_of_mem _ hq) hq2)
    | false =>
      have hlook : lookupA n t.entries = some e := h (n, e) (List.mem_cons_self _ _) hld
      have hstep : copyTopStep t n e = some t := by
        rw [copyTopStep_eq t n e hld (by rw [hlook]; cases e <;> rfl),
          setA_self n e t.entries hlook]
      simp only [copyTopList, hstep]
      exact ih t (fun q hq hq2 => h q (List.mem_cons_of_mem _ hq) hq2)

theorem copyTopList_ok (es : List (String × Entry)) : ∀ t : Target,
    (∀ q ∈ es, lowerIsData q.1 = false →
      kindCompat (lookupA q.1 t.entries) q.2 = true) →
    (es.map Prod.fst).Nodup →
    ∃ t1 : Target, copyTopList es t = .ok t1
      ∧ (∀ m : String, m ∉ writtenNames es →
          lookupA m t1.entries = lookupA m t.entries)
      ∧ (∀ q ∈ es, lowerIsData q.1 = false → lookupA q.1 t1.entries = some q.2)
      ∧ (∀ k : String, (lookupA k t.entries).isSome = true →
          (lookupA k t1.entries).isSome = true)
      ∧ ∃ app, shapeOf t1.entries = shapeOf t.entries ++ app := by
  induction es with
  | nil =>
    intro t _ _
    exact ⟨t, rfl, fun m _ => rfl, by simp, fun k h => h, [], by simp⟩
  | cons qe rest ih =>
    obtain ⟨n, e⟩ := qe
    intro t hc hnd
    rw [List.map_cons, List.nodup_cons] at hnd
    cases hld : lowerIsData n with
    | true =>
      have hstep : copyTopStep t n e = some t := by simp [copyTopStep, hld]
      obtain ⟨t1, h1, h2, h3, h4, app, h5⟩ :=
        ih t (fun q hq hq2 => hc q (List.mem_cons_of_mem _ hq) hq2) hnd.2
      refine ⟨t1, ?_, ?_, ?_, h4, app, h5⟩
      · simp only [copyTopList, hstep]
        exact h1
      · intro m hm
        rw [writtenNames_cons_skip n e rest hld] at hm
        exact h2 m hm
      · intro q hq hq2
        rcases List.mem_cons.mp hq with rfl | hq'
        · rw [hld] at hq2
          exact absurd hq2 (by simp)
        · exact h3 q hq' hq2
    | false =>
      have hcomp0 : kindCompat (lookupA n t.entries) e = true :=
        hc (n, e) (List.mem_cons_self _ _) hld
      have hstep := copyTopStep_eq t n e hld hcomp0
      have hc' : ∀ q ∈ rest, lowerIsData q.1 = false →
          kindCompat (lookupA q.1 (⟨setA n e t.entries⟩ : Target).entries) q.2 = true := by
        intro q hq hq2
        have hne : n ≠ q.1 := by
          intro h
          apply hnd.1
          rw [h]
          exact List.mem_map.mpr ⟨q, hq, rfl⟩
        show kindCompat (lookupA q.1 (setA n e t.entries)) q.2 = true
        rw [lookupA_setA, if_neg hne]
        exact hc q (List.mem_cons_of_mem _ hq) hq2
      obtain ⟨t1, h1, h2, h3, h4, app, h5⟩ := ih ⟨setA n e t.entries⟩ hc' hnd.2
      refine ⟨t1, ?_, ?_, ?_, ?_, ?_⟩
      · simp only [copyTopList, hstep]
        exact h1
      · intro m hm
        rw [writtenNames_cons_write n e rest hld] at hm
        have hmn : m ≠ n := fun h => hm (h ▸ List.mem_cons_self _ _)
        have hmr : m ∉ writtenNames rest := fun h => hm (List.mem_cons_of_mem _ h)
        rw [h2 m hmr]
        show lookupA m (setA n e t.entries) = lookupA m t.entries
        rw [lookupA_setA, if_neg (fun h => hmn h.symm)]
      · intro q hq hq2
        rcases List.mem_cons.mp hq with rfl | hq'
        · have hnr : n ∉ writtenNames rest := by
            intro h
            exact hnd.1 (mem_of_mem_writtenNames rest n h)
          rw [h2 n hnr]
          show lookupA n (setA n e t.entries) = some e
          rw [lookupA_setA, if_pos rfl]
        · exact h3 q hq' hq2
      · intro k hk
        apply h4
        show (lookupA k (setA n e t.entries)).isSome = true
        rw [lookupA_setA]
        by_cases hkn : n = k
        · rw [if_pos hkn]; rfl
        · rw [if_neg hkn]; exact hk
      · cases hl : lookupA n t.entries with
        | none =>
          refine ⟨(n, e.isDir) :: app, ?_⟩
          rw [h5]
          show shapeOf (setA n e t.entries) ++ app = _
          rw [setA_of_lookup_none n e t.entries hl]
          simp [shapeOf]
        | some old =>
          have hdir : old.isDir = e.isDir := by
            rw [hl] at hcomp0
            cases old <;> cases e <;> first | rfl | (simp [kindCompat] at hcomp0)
          refine ⟨app, ?_⟩
          rw [h5]
          show shapeOf (setA n e t.entries) ++ app = _
          rw [shapeOf_setA_same n e old t.entries hl hdir]

/-- The data-folder test at the shape level. -/
def matchShape (q : String × Bool) : Bool := containsData q.1 && q.2

theorem find?_shape (l : List (String × Entry)) :
    (l.find? matchesData).map (fun q => (q.1, q.2.isDir)) =
      (shapeOf l).find? matchShape := by
  rw [shapeOf, List.find?_map]
  rfl

theorem findData_shape (t t' : Target) (dname : String) (app : List (String × Bool))
    (hsh : shapeOf t'.entries = shapeOf t.entries ++ app)
    (hf : findData t = some dname) : findData t' = some dname := by
  obtain ⟨q0, hq0, hq0n⟩ : ∃ q0, t.entries.find? matchesData = some q0
      ∧ q0.1 = dname := by
    unfold findData at hf
    cases hfind : t.entries.find? matchesData with
    | none => rw [hfind] at hf; exact absurd hf (by simp)
    | some q0 =>
      rw [hfind] at hf
      exact ⟨q0, rfl, by simpa using hf⟩
  have h2 : (shapeOf t.entries).find? matchShape = some (q0.1, q0.2.isDir) := by
    rw [← find?_shape, hq0]
    rfl
  unfold findData
  cases hfind' : t'.entries.find? matchesData with
  | none =>
    have hkey := find?_shape t'.entries
    rw [hfind', hsh, List.find?_append, h2] at hkey
    exact absurd hkey.symm (by simp)
  | some q' =>
    have hkey := find?_shape t'.entries
    rw [hfind', hsh, List.find?_append, h2] at hkey
    have hpair : (q'.1, q'.2.isDir) = (q0.1, q0.2.isDir) := by
      have : Option.some (q'.1, q'.2.isDir) = some (q0.1, q0.2.isDir) := by
        simpa using hkey
      exact Option.some.inj this
    have : q'.1 = q0.1 := (Prod.ext_iff.mp hpair).1
    rw [Option.map_some']
    rw [this, hq0n]

theorem isNone_false_iff_isSome {α : Type} (o : Option α) :
    o.isNone = false ↔ o.isSome = true := by
  cases o <;> simp

theorem writtenNames_mem_inv (es : List (String × Entry)) (m : String)
    (h : m ∈ writtenNames es) :
    ∃ q ∈ es, q.1 = m ∧ lowerIsData q.1 = false := by
  obtain ⟨q, hq, rfl⟩ := List.mem_map.mp h
  obtain ⟨hq1, hq2⟩ := List.mem_filter.mp hq
  exact ⟨q, hq1, rfl, by simpa using hq2⟩

theorem fileAt_cons (t : Target) (nm : String) (rest : FsPath) :
    Target.fileAt t (nm :: rest) =
      (match lookupA nm t.entries with
      | some (.file c) => if rest.isEmpty then some c else none
      | some (.dir tr) => if rest.isEmpty then none else lookupA rest tr
      | none => none) := rfl

theorem insert_online_fix_eq (ov : OverlaySrc) (failCopy : FsPath → Bool)
    (t : Target) (dname : String) (dtree : List (FsPath × Content))
    (t1 : Target) (tr : List (FsPath × Content))
    (Hm : (lookupA "UnityCrashHandler64.exe" t.entries).isNone = false)
    (Hf : findData t = some dname)
    (HD : lookupA "Data" ov.entries = some (.dir dtree))
    (Hc : copyTopList ov.entries t = .ok t1)
    (Hl : lookupA dname t1.entries = some (.dir tr)) :
    insert_online_fix (some ov) failCopy t =
      (.ok, ⟨setA dname (.dir (mergeTree failCopy dtree tr)) t1.entries⟩) := by
  simp [insert_online_fix, Hm, Hf, HD, Hc, Hl]

/-- C4 amended: on a valid overlay target (marker present, data folder
discovered, overlay source with its reserved `Data` subdirectory present),
and provided no non-reserved top-level overlay entry collides in kind with
an existing target entry (a directory over a file aborts with
overlay-apply-failed, see the counterexample; a file over a directory lands
inside that directory rather than in the target root) nor is named like the
discovered data folder: apply succeeds, copies every non-reserved top-level
overlay entry into the target root (directories replaced wholesale), merges
every file below `Data` into the discovered data folder at its relative
path with per-file failures swallowed, and re-running apply on the patched
target succeeds again and yields an identical resulting file set. -/
theorem C4_amended_overlay_apply (ov : OverlaySrc) (failCopy : FsPath → Bool)
    (t : Target) (dname : String) (dtree : List (FsPath × Content))
    (Hm : (lookupA "UnityCrashHandler64.exe" t.entries).isNone = false)
    (Hf : findData t = some dname)
    (HD : lookupA "Data" ov.entries = some (.dir dtree))
    (Htn : (t.entries.map Prod.fst).Nodup)
    (Hon : (ov.entries.map Prod.fst).Nodup)
    (Hcompat : ∀ q ∈ ov.entries, lowerIsData q.1 = false →
      kindCompat (lookupA q.1 t.entries) q.2 = true)
    (Hd : ∀ q ∈ ov.entries, lowerIsData q.1 = false → q.1 ≠ dname)
    (Hdn : (dtree.map Prod.fst).Nodup) :
    (insert_online_fix (some ov) failCopy t).1 = .ok
    ∧ (∀ q ∈ ov.entries, lowerIsData q.1 = false →
        lookupA q.1 (insert_online_fix (some ov) failCopy t).2.entries = some q.2)
    ∧ (∃ tr, lookupA dname (insert_online_fix (some ov) failCopy t).2.entries
        = some (.dir tr)
        ∧ ∀ pc ∈ dtree, failCopy pc.1 = false → lookupA pc.1 tr = some pc.2)
    ∧ (insert_online_fix (some ov) failCopy
        (insert_online_fix (some ov) failCopy t).2).1 = .ok
    ∧ (∀ p : FsPath, Target.fileAt (insert_online_fix (some ov) failCopy
        (insert_online_fix (some ov) failCopy t).2).2 p
        = Target.fileAt (insert_online_fix (some ov) failCopy t).2 p) := by
  obtain ⟨t1, Hc, Hunch, Hwr, Hsome, app, Hshape⟩ :=
    copyTopList_ok ov.entries t Hcompat Hon
  obtain ⟨q0, hfind0, hq0n⟩ : ∃ q0, t.entries.find? matchesData = some q0
      ∧ q0.1 = dname := by
    unfold findData at Hf
    cases hfind : t.entries.find? matchesData with
    | none => rw [hfind] at Hf; exact absurd Hf (by simp)
    | some q0 =>
      rw [hfind] at Hf
      exact ⟨q0, rfl, by simpa using Hf⟩
  have hq0mem : q0 ∈ t.entries := List.mem_of_find?_eq_some hfind0
  have hq0match : matchesData q0 = true := List.find?_some hfind0
  have hq0dir : q0.2.isDir = true := (Bool.and_eq_true_iff.mp hq0match).2
  obtain ⟨tree0, hq02⟩ : ∃ tree0, q0.2 = Entry.dir tree0 := by
    cases h2 : q0.2 with
    | file c =>
      rw [h2] at hq0dir
      exact absurd hq0dir (by simp [Entry.isDir])
    | dir tr => exact ⟨tr, rfl⟩
  have hlookt : lookupA dname t.entries = some (Entry.dir tree0) := by
    have hl := lookupA_of_mem_nodup t.entries q0 hq0mem Htn
    rw [hq0n, hq02] at hl
    exact hl
  have hdnotwr : dname ∉ writtenNames ov.entries := by
    intro hmem
    obtain ⟨q, hq, hq1, hq2⟩ := writtenNames_mem_inv ov.entries dname hmem
    exact Hd q hq hq2 hq1
  have Hl1 : lookupA dname t1.entries = some (Entry.dir tree0) := by
    rw [Hunch dname hdnotwr, hlookt]
  have Hrun1 := insert_online_fix_eq ov failCopy t dname dtree t1 tree0
    Hm Hf HD Hc Hl1
  have Hcopy2 : ∀ q ∈ ov.entries, lowerIsData q.1 = false →
      lookupA q.1 (setA dname (Entry.dir (mergeTree failCopy dtree tree0))
        t1.entries) = some q.2 := by
    intro q hq hq2
    rw [lookupA_setA, if_neg (fun h => Hd q hq hq2 h.symm)]
    exact Hwr q hq hq2
  have hsome_t2 : (lookupA "UnityCrashHandler64.exe"
      (setA dname (Entry.dir (mergeTree failCopy dtree tree0))
        t1.entries)).isSome = true := by
    rw [lookupA_setA]
    by_cases hdn : dname = "UnityCrashHandler64.exe"
    · rw [if_pos hdn]; rfl
    · rw [if_neg hdn]
      exact Hsome _ ((isNone_false_iff_isSome _).mp Hm)
  have hsh2 : shapeOf (setA dname (Entry.dir (mergeTree failCopy dtree tree0))
      t1.entries) = shapeOf t.entries ++ app := by
    rw [shapeOf_setA_same dname (Entry.dir (mergeTree failCopy dtree tree0))
      (Entry.dir tree0) t1.entries Hl1 rfl]
    exact Hshape
  have Hf2 : findData ⟨setA dname (Entry.dir (mergeTree failCopy dtree tree0))
      t1.entries⟩ = some dname :=
    findData_shape t _ dname app hsh2 Hf
  have Hc2 : copyTopList ov.entries
      ⟨setA dname (Entry.dir (mergeTree failCopy dtree tree0)) t1.entries⟩
      = .ok ⟨setA dname (Entry.dir (mergeTree failCopy dtree tree0)) t1.entries⟩ :=
    copyTopList_fixpoint ov.entries _ (fun q hq hq2 => Hcopy2 q hq hq2)
  have Hl2 : lookupA dname (setA dname (Entry.dir (mergeTree failCopy dtree tree0))
      t1.entries) = some (Entry.dir (mergeTree failCopy dtree tree0)) := by
    rw [lookupA_setA, if_pos rfl]
  have Hrun2 := insert_online_fix_eq ov failCopy
    ⟨setA dname (Entry.dir (mergeTree failCopy dtree tree0)) t1.entries⟩
    dname dtree
    ⟨setA dname (Entry.dir (mergeTree failCopy dtree tree0)) t1.entries⟩
    (mergeTree failCopy dtree tree0)
    ((isNone_false_iff_isSome _).mpr hsome_t2) Hf2 HD Hc2 Hl2
  have hflnd : ((dtree.filter (fun pc => !failCopy pc.1)).map Prod.fst).Nodup :=
    List.Nodup.sublist ((List.filter_sublist dtree).map Prod.fst) Hdn
  refine ⟨by rw [Hrun1], ?_, ?_, ?_, ?_⟩
  · intro q hq hq2
    rw [Hrun1]
    exact Hcopy2 q hq hq2
  · refine ⟨mergeTree failCopy dtree tree0, by rw [Hrun1]; exact Hl2, ?_⟩
    intro pc hpc hfc
    rw [mergeTree_eq_setFold, lookupA_setFold,
      lastVal_of_mem_nodup _ pc (List.mem_filter.mpr ⟨hpc, by simp [hfc]⟩) hflnd]
    rfl
  · rw [Hrun1]
    show (insert_online_fix (some ov) failCopy
      ⟨setA dname (Entry.dir (mergeTree failCopy dtree tree0)) t1.entries⟩).1
      = FixOutcome.ok
    rw [Hrun2]
  · intro p
    rw [Hrun1]
    show Target.fileAt (insert_online_fix (some ov) failCopy
        ⟨setA dname (Entry.dir (mergeTree failCopy dtree tree0)) t1.entries⟩).2 p
      = Target.fileAt
        ⟨setA dname (Entry.dir (mergeTree failCopy dtree tree0)) t1.entries⟩ p
    rw [Hrun2]
    cases p with
    | nil => rfl
    | cons nm rest =>
      rw [fileAt_cons, fileAt_cons]
      show (match lookupA nm (setA dname
          (Entry.dir (mergeTree failCopy dtree (mergeTree failCopy dtree tree0)))
          (setA dname (Entry.dir (mergeTree failCopy dtree tree0)) t1.entries)) with
        | some (.file c) => if rest.isEmpty then some c else none
        | some (.dir tr) => if rest.isEmpty then none else lookupA rest tr
        | none => none) =
        (match lookupA nm (setA dname (Entry.dir (mergeTree failCopy dtree tree0))
          t1.entries) with
        | some (.file c) => if rest.isEmpty then some c else none
        | some (.dir tr) => if rest.isEmpty then none else lookupA rest tr
        | none => none)
      rw [lookupA_setA]
      by_cases hnm : dname = nm
      · rw [if_pos hnm]
        subst hnm
        rw [Hl2]
        show (if rest.isEmpty then none
            else lookupA rest (mergeTree failCopy dtree (mergeTree failCopy dtree tree0)))
          = (if rest.isEmpty then none
            else lookupA rest (mergeTree failCopy dtree tree0))
        by_cases hre : rest.isEmpty = true
        · rw [if_pos hre, if_pos hre]
        · rw [if_neg hre, if_neg hre]
          rw [mergeTree_eq_setFold failCopy dtree, mergeTree_eq_setFold failCopy dtree,
            lookupA_setFold, lookupA_setFold]
          exact oor_self_absorb _ _
      · rw [if_neg hnm]

/-- Witness for the amended C4 on a concrete Unity-like target and
overlay. -/
theorem C4_amended_overlay_apply_witness :
    (insert_online_fix
      (some ⟨[("OnlineFix64.dll", Entry.file 4),
        ("Data", Entry.dir [(["cfg", "of.ini"], 5)])]⟩)
      (fun _ => false)
      ⟨[("UnityCrashHandler64.exe", Entry.file 0),
        ("GameData", Entry.dir [(["old.txt"], 9)])]⟩).1 = .ok
    ∧ lookupA "OnlineFix64.dll"
      (insert_online_fix
        (some ⟨[("OnlineFix64.dll", Entry.file 4),
          ("Data", Entry.dir [(["cfg", "of.ini"], 5)])]⟩)
        (fun _ => false)
        ⟨[("UnityCrashHandler64.exe", Entry.file 0),
          ("GameData", Entry.dir [(["old.txt"], 9)])]⟩).2.entries
      = some (Entry.file 4)
    ∧ (insert_online_fix
      (some ⟨[("OnlineFix64.dll", Entry.file 4),
        ("Data", Entry.dir [(["cfg", "of.ini"], 5)])]⟩)
      (fun _ => false)
      (insert_online_fix
        (some ⟨[("OnlineFix64.dll", Entry.file 4),
          ("Data", Entry.dir [(["cfg", "of.ini"], 5)])]⟩)
        (fun _ => false)
        ⟨[("UnityCrashHandler64.exe", Entry.file 0),
          ("GameData", Entry.dir [(["old.txt"], 9)])]⟩).2).1 = .ok := by
  have h := C4_amended_overlay_apply
    ⟨[("OnlineFix64.dll", Entry.file 4),
      ("Data", Entry.dir [(["cfg", "of.ini"], 5)])]⟩
    (fun _ => false)
    ⟨[("UnityCrashHandler64.exe", Entry.file 0),
      ("GameData", Entry.dir [(["old.txt"], 9)])]⟩
    "GameData" [(["cfg", "of.ini"], 5)]
    (by decide) (by decide) (by decide) (by decide) (by decide) (by decide)
    (by decide) (by decide)
  exact ⟨h.1, h.2.1 ("OnlineFix64.dll", Entry.file 4) (by decide) (by decide),
    h.2.2.2.1⟩
